import Mathlib

/-!
Verification development for the RPSL object parser (irrd/rpsl/parser.py).

Python strings are modelled as lists of characters (`Str`).  Python string
primitives used by the parser (strip, splitlines, split with maxsplit 1,
lower, upper, ljust, replace, strip with an explicit character set) are
translated below.  Line structure is modelled over the newline character;
the exotic additional line separators of Python splitlines (vertical tab,
form feed, unicode separators) are outside the modelled input space.

Fallible code is modelled with Option: a `none` result of an extraction
run models a raised Python exception (the ValueError from unpacking
`line.split(":", maxsplit=1)` on a line without a colon, or an IndexError
from `continuation_chars[idx-1]` during rendering).
-/

abbrev Str := List Char

def nlChar : Char := '\n'

/-- Python str.strip() whitespace set (space, tab, newline, carriage
return, vertical tab, form feed). -/
def isPySpace (c : Char) : Bool :=
  c = ' ' || c = '\t' || c = '\n' || c = '\r' || c = '\x0b' || c = '\x0c'

def dropTrailing (p : Char → Bool) (l : Str) : Str :=
  (l.reverse.dropWhile p).reverse

def stripBoth (p : Char → Bool) (l : Str) : Str :=
  dropTrailing p (l.dropWhile p)

/-- Python str.strip() with no arguments. -/
def pyStrip (l : Str) : Str := stripBoth isPySpace l

/-- Split a list at every occurrence of `sep`; always returns at least one
(possibly empty) part, like Python str.split(sep). -/
def splitChar (sep : Char) : Str → List Str
  | [] => [[]]
  | c :: cs =>
    match splitChar sep cs with
    | [] => [[]]
    | r :: rs => if c = sep then [] :: r :: rs else (c :: r) :: rs

/-- Python str.splitlines() over the newline character: like splitting at
every newline, except that a trailing empty segment is dropped. -/
def splitlinesPy (l : Str) : List Str :=
  let parts := splitChar nlChar l
  if parts.getLast? = some [] then parts.dropLast else parts

/-- Python `line.split(":", maxsplit=1)` together with the two-variable
unpacking: `none` models the ValueError raised when no colon occurs. -/
def splitColonAux : Str → Option (Str × Str)
  | [] => none
  | c :: cs =>
    if c = ':' then some ([], cs)
    else
      match splitColonAux cs with
      | none => none
      | some (a, b) => some (c :: a, b)

def pyToLower (c : Char) : Char :=
  if 'A' ≤ c ∧ c ≤ 'Z' then Char.ofNat (c.toNat + 32) else c

def pyToUpper (c : Char) : Char :=
  if 'a' ≤ c ∧ c ≤ 'z' then Char.ofNat (c.toNat - 32) else c

def pyLower (l : Str) : Str := l.map pyToLower

def pyUpper (l : Str) : Str := l.map pyToUpper

/-- Python `"sep".join(parts)`. -/
def pyJoin (sep : Str) : List Str → Str
  | [] => []
  | [x] => x
  | x :: y :: rest => x ++ sep ++ pyJoin sep (y :: rest)

/-- One character of the attribute-name pattern of the source,
the regular expression of lowercase letters, digits, underscore, hyphen. -/
def isNameChar (c : Char) : Bool :=
  ('a' ≤ c && c ≤ 'z') || ('0' ≤ c && c ≤ '9') || c = '_' || c = '-'

/-- `_re_attr_name.match(name)`: the whole name consists of characters of
the class and is nonempty. -/
def attrNameOk (l : Str) : Bool := !l.isEmpty && l.all isNameChar

/-- `continuation_chars = (" ", "+", "\t")` of the source. -/
def contStartChars : List Char := [' ', '+', '\t']

/-- One parsed attribute occurrence: one 3-tuple of `self._object_data`. -/
structure AttributeLine where
  attr : Str
  value : Str
  continuationChars : List Char
deriving DecidableEq, Repr

/-- Modelled from the spec: RPSLParserMessages (irrd/rpsl/validators.py is
not under src/) is an ordered error accumulator; each constructor records
one error message of the parser core, keeping its identifying data. -/
inductive RPSLErr where
  | emptyLine (lineNo : Nat)
  | malformedAttrName (lineNo : Nat) (attr : Str)
  | unrecognisedAttr (attr : Str)
  | multipleTimes (attr : Str)
  | missingMandatory (attr : Str)
deriving DecidableEq, Repr

/-- The loop state of `_extract_attributes_values`:
line counter of enumerate, `current_attr`, `current_value`,
`current_continuation_chars`, and the `self._object_data` accumulator. -/
structure ExtState where
  lineNo : Nat
  currentAttr : Option Str
  currentValue : Str
  currentContChars : List Char
  objectData : List AttributeLine
deriving DecidableEq, Repr

/-- `if current_attr: self._object_data.append(...)` - the pending
attribute is flushed only when `current_attr` is truthy (not None and not
the empty string). -/
def flushData (s : ExtState) : List AttributeLine :=
  match s.currentAttr with
  | none => s.objectData
  | some a =>
    if a = [] then s.objectData
    else s.objectData ++ [⟨a, s.currentValue, s.currentContChars⟩]

inductive StepRes where
  | cont (s : ExtState)
  | halt (data : List AttributeLine) (errs : List RPSLErr)
  | exc
deriving DecidableEq, Repr

/-- One iteration of the line loop of `_extract_attributes_values`. -/
def stepLine (attrsAllowed : List Str) (s : ExtState) : Str → StepRes
  | [] => .halt s.objectData [.emptyLine (s.lineNo + 1)]
  | c :: rest =>
    if c ∈ contStartChars then
      .cont ⟨s.lineNo + 1, s.currentAttr,
             s.currentValue ++ nlChar :: pyStrip rest,
             s.currentContChars ++ [c], s.objectData⟩
    else
      match splitColonAux (c :: rest) with
      | none => .exc
      | some (rawAttr, rawValue) =>
        let attrName := pyLower rawAttr
        let value := pyStrip rawValue
        let data := flushData s
        if attrName ∉ attrsAllowed ∧ attrNameOk attrName = false then
          .halt data [.malformedAttrName (s.lineNo + 1) attrName]
        else
          .cont ⟨s.lineNo + 1, some attrName, value, [], data⟩

/-- Run the extraction loop to completion; at end of input the pending
attribute is flushed.  `none` models a raised exception. -/
def runLines (attrsAllowed : List Str) :
    ExtState → List Str → Option (List AttributeLine × List RPSLErr)
  | s, [] => some (flushData s, [])
  | s, line :: rest =>
    match stepLine attrsAllowed s line with
    | .cont s' => runLines attrsAllowed s' rest
    | .halt d e => some (d, e)
    | .exc => none

def initExtState : ExtState := ⟨0, none, [], [], []⟩

/-- `RPSLObject._extract_attributes_values` on `text`. -/
def extractAttributesValues (attrsAllowed : List Str) (text : Str) :
    Option (List AttributeLine × List RPSLErr) :=
  runLines attrsAllowed initExtState (splitlinesPy (pyStrip text))

/-- Run the extraction loop over a prefix of the lines, requiring that it
neither halts nor raises: the resulting mid-loop state. -/
def runCont (attrsAllowed : List Str) : ExtState → List Str → Option ExtState
  | s, [] => some s
  | s, line :: rest =>
    match stepLine attrsAllowed s line with
    | .cont s' => runCont attrsAllowed s' rest
    | _ => none

def rpslAttributeTextWidth : Nat := 16

/-- `f"{attr}:".ljust(RPSL_ATTRIBUTE_TEXT_WIDTH)`. -/
def ljustWidth (l : Str) : Str :=
  l ++ List.replicate (rpslAttributeTextWidth - l.length) ' '

/-- The `(RPSL_ATTRIBUTE_TEXT_WIDTH-1) * " "` padding of continuation
lines. -/
def contPadding : Str := List.replicate (rpslAttributeTextWidth - 1) ' '

/-- The render loop over `value_lines[1:]`: each line consumes the next
continuation character; `none` models the IndexError raised when
`continuation_chars[idx-1]` is out of range. -/
def renderContLines (chars : List Char) : List Str → Option Str
  | [] => some []
  | line :: rest =>
    match chars with
    | [] => none
    | c :: cs =>
      match renderContLines cs rest with
      | none => none
      | some r => some (c :: contPadding ++ line ++ [nlChar] ++ r)

/-- Rendering of one attribute occurrence inside `render_rpsl_text`. -/
def renderAttrLine (a : AttributeLine) : Option Str :=
  match splitlinesPy a.value with
  | [] => some (a.attr ++ [':', nlChar])
  | first :: rest =>
    match renderContLines a.continuationChars rest with
    | none => none
    | some r => some (ljustWidth (a.attr ++ [':']) ++ first ++ [nlChar] ++ r)

/-- `RPSLObject.render_rpsl_text` over the stored object data. -/
def renderRpslText : List AttributeLine → Option Str
  | [] => some []
  | a :: rest =>
    match renderAttrLine a, renderRpslText rest with
    | some x, some y => some (x ++ y)
    | _, _ => none

/-- `line.split("#")[0]`: the part before the first hash. -/
def splitHashHead (l : Str) : Str := l.takeWhile (fun c => decide (c ≠ '#'))

/-- `line.strip("\n, ")`: strip newline, comma and space characters from
both ends. -/
def stripCommaNl (l : Str) : Str :=
  stripBoth (fun c => c = '\n' || c = ',' || c = ' ') l

/-- `RPSLObject._normalise_rpsl_value`. -/
def normaliseRpslValue (value : Str) : Str :=
  if nlChar ∈ value then
    pyJoin [','] (((splitlinesPy value).map
      (fun line => stripCommaNl (splitHashHead line))).filter (fun l => !l.isEmpty))
  else
    if '#' ∈ value then pyStrip (splitHashHead value) else pyStrip value

/-- Distinct elements in order of first occurrence: the key sequence of
`Counter(...)` built from a list. -/
def firstOccs : List Str → List Str
  | [] => []
  | a :: rest => a :: firstOccs (rest.filter (fun b => decide (b ≠ a)))
termination_by l => l.length
decreasing_by
  simp only [List.length_cons]
  exact Nat.lt_succ_of_le (List.length_filter_le _ _)

/-- `RPSLObject._validate_attribute_counts`, with messages structured. -/
def validateAttributeCounts (attrsAllowed attrsMultiple attrsRequired : List Str)
    (data : List AttributeLine) : List RPSLErr :=
  let names := data.map (fun a => a.attr)
  ((firstOccs names).map (fun a =>
      (if a ∉ attrsAllowed then [RPSLErr.unrecognisedAttr a] else []) ++
      (if names.count a > 1 ∧ a ∉ attrsMultiple then [RPSLErr.multipleTimes a] else []))).flatten
  ++ (attrsRequired.filter (fun r => decide (r ∉ names))).map RPSLErr.missingMandatory

/-- Modelled from the spec: RPSLTextField (irrd/rpsl/fields.py is not
under src/) carries the four flags and a clean capability that returns a
cleaned value or fails; `none` models a failed clean (the capability
records its own message, the core records none). -/
structure RPSLTextField where
  primary_key : Bool
  lookup_key : Bool
  optional : Bool
  multiple : Bool
  clean : Str → Option Str

/-- The cleaned_data dictionary: insertion-ordered key/value pairs. -/
abbrev CleanedData := List (Str × Str)

def cdGet : CleanedData → Str → Option Str
  | [], _ => none
  | p :: tl, k => if p.1 = k then some p.2 else cdGet tl k

/-- Python dict assignment: overwrite in place when the key exists,
append otherwise. -/
def cdSet (cd : CleanedData) (k v : Str) : CleanedData :=
  if (cdGet cd k).isSome then
    cd.map (fun p => if p.1 = k then (k, v) else p)
  else cd ++ [(k, v)]

/-- Python str.replace for a nonempty pattern: replace non-overlapping
occurrences left to right. -/
def pyReplaceCore (pat rep : Str) : Str → Str
  | [] => []
  | c :: cs =>
    if pat ≠ [] ∧ pat.isPrefixOf (c :: cs) then
      rep ++ pyReplaceCore pat rep (cs.drop (pat.length - 1))
    else c :: pyReplaceCore pat rep cs
termination_by s => s.length
decreasing_by
  · simp only [List.length_cons]
    have h := List.length_drop (pat.length - 1) cs
    omega
  · simp only [List.length_cons]
    omega

/-- Python `value.replace(old, new)`, including the empty-pattern case
(the replacement is inserted before every character and at the end). -/
def pyReplace (s pat rep : Str) : Str :=
  if pat = [] then rep ++ (s.map (fun c => c :: rep)).flatten
  else pyReplaceCore pat rep s

/-- One iteration of the loop of `RPSLObject._clean_attribute_data`:
rebuilds the occurrence (possibly cosmetically rewritten) and accumulates
cleaned_data. -/
def cleanStep (fields : Str → Option RPSLTextField) (strictValidation : Bool)
    (st : List AttributeLine × CleanedData) (a : AttributeLine) :
    List AttributeLine × CleanedData :=
  match fields a.attr with
  | none => (st.1 ++ [a], st.2)
  | some field =>
    if strictValidation || field.primary_key || field.lookup_key then
      let normalisedValue := normaliseRpslValue a.value
      match field.clean normalisedValue with
      | none => (st.1 ++ [a], st.2)
      | some cleanedValue =>
        if cleanedValue = [] then (st.1 ++ [a], st.2)
        else
          let a' := if cleanedValue ≠ normalisedValue then
              { a with value := pyReplace a.value normalisedValue cleanedValue }
            else a
          let cd' := match cdGet st.2 a.attr with
            | some old => cdSet st.2 a.attr (old ++ nlChar :: cleanedValue)
            | none => cdSet st.2 a.attr cleanedValue
          (st.1 ++ [a'], cd')
    else (st.1 ++ [a], st.2)

/-- `RPSLObject._clean_attribute_data` over the stored object data. -/
def cleanAttributeData (fields : Str → Option RPSLTextField)
    (strictValidation : Bool) (data : List AttributeLine) :
    List AttributeLine × CleanedData :=
  data.foldl (cleanStep fields strictValidation) ([], [])

/-- `RPSLObject._validate_object`: cardinality check in strict mode only,
then the cleaning pass (the `clean()` hook of the base class is a no-op
returning True). -/
def validateObject (fields : Str → Option RPSLTextField)
    (attrsAllowed attrsMultiple attrsRequired : List Str)
    (strictValidation : Bool) (data : List AttributeLine) :
    List AttributeLine × CleanedData × List RPSLErr :=
  let errs := if strictValidation then
      validateAttributeCounts attrsAllowed attrsMultiple attrsRequired data
    else []
  let dc := cleanAttributeData fields strictValidation data
  (dc.1, dc.2, errs)

/-- `RPSLObject.pk`. -/
def pk (pkFields : List Str) (cleanedData : CleanedData) : Str :=
  match pkFields with
  | [f] => pyUpper ((cdGet cleanedData f).getD [])
  | _ => pyUpper (pyJoin [','] (pkFields.map (fun f => (cdGet cleanedData f).getD [])))

/-- Python `list.insert(i, a)` (the index clamps to the length). -/
def pyInsertAt (l : List AttributeLine) (i : Nat) (a : AttributeLine) :
    List AttributeLine :=
  l.take i ++ a :: l.drop i

/-- The insertion loop of `_update_attribute_value`: successive inserts at
positions 1, 2, ... -/
def insertNewValues (attrName : Str) :
    List AttributeLine → Nat → List Str → List AttributeLine
  | l, _, [] => l
  | l, i, v :: vs => insertNewValues attrName (pyInsertAt l i ⟨attrName, v, []⟩) (i + 1) vs

/-- `RPSLObject._update_attribute_value` (new_values already a list;
the source wraps a single string into a one-element list first). -/
def updateAttributeValue (data : List AttributeLine) (cleanedData : CleanedData)
    (attrName : Str) (newValues : List Str) :
    List AttributeLine × CleanedData :=
  let cd := cdSet cleanedData ("attribute".data) (pyJoin [nlChar] newValues)
  let filtered := data.filter (fun a => decide (a.attr ≠ attrName))
  (insertNewValues attrName filtered 1 newValues, cd)

/-- Definition following the words of claim C7: with exactly one pk field
the cleaned value of that field (empty when missing) upper-cased, with
several the values joined with a comma in declared order and the joined
result upper-cased as a whole. -/
def pkFromSpecC7 (pkFields : List Str) (cleanedData : CleanedData) : Str :=
  if pkFields.length = 1 then
    pyUpper ((cdGet cleanedData (pkFields.headD [])).getD [])
  else
    pyUpper (pyJoin [','] (pkFields.map (fun f => (cdGet cleanedData f).getD [])))

/-- Trimming as claim C8 words it: surrounding whitespace and commas. -/
def stripWsComma (l : Str) : Str :=
  stripBoth (fun c => isPySpace c || c = ',') l

/-- Definition following the words of claim C8 for a multi-line value:
per physical line drop everything from the first hash, trim surrounding
whitespace and leading/trailing commas, discard empty lines, join the
survivors with a comma. -/
def normaliseFromSpecC8 (value : Str) : Str :=
  pyJoin [','] (((splitlinesPy value).map
    (fun line => stripWsComma (splitHashHead line))).filter (fun l => !l.isEmpty))

/-- Per-line cleaning of the amended claim C8, written from the amended
words: drop everything from the first hash; then remove leading and
trailing characters drawn from space, newline and comma (tabs and other
whitespace stay); built here by trimming the end first and the start
second. -/
def lineCleanAmendedC8 (line : Str) : Str :=
  (((line.takeWhile (fun c => decide (c ≠ '#'))).reverse.dropWhile
      (fun c => c = '\n' || c = ',' || c = ' ')).reverse).dropWhile
      (fun c => c = '\n' || c = ',' || c = ' ')

/-- The normalisation of a multi-line value as amended claim C8 words it. -/
def normaliseFromSpecC8Amended (value : Str) : Str :=
  pyJoin [','] (((splitlinesPy value).map lineCleanAmendedC8).filter (fun l => !l.isEmpty))

/-- The invariant of claim C4: the number of fold markers is one less than
the number of physical lines of the raw value (the parts obtained by
splitting the raw value at every embedded newline). -/
def foldInvariant (a : AttributeLine) : Prop :=
  a.continuationChars.length + 1 = (splitChar nlChar a.value).length

/-- A list with no leading and no trailing Python whitespace. -/
def NoEdgeWs (l : Str) : Prop :=
  (∀ c, l.head? = some c → isPySpace c = false) ∧
  (∀ c, l.getLast? = some c → isPySpace c = false)

/-- The shape every attribute occurrence produced by a run of the
extraction loop has: a name accepted by the name pattern, value segments
individually stripped, one continuation character per embedded newline,
all continuation characters drawn from space, plus, tab. -/
def GoodAttrLine (a : AttributeLine) : Prop :=
  attrNameOk a.attr = true ∧
  (∀ s ∈ splitChar nlChar a.value, NoEdgeWs s) ∧
  foldInvariant a ∧
  (∀ c ∈ a.continuationChars, c ∈ contStartChars)

/-- The physical lines renderAttrLine emits for one attribute
occurrence, without the trailing newlines (total companion of the
rendering, used to state the round-trip). -/
def renderedLines (a : AttributeLine) : List Str :=
  match splitlinesPy a.value with
  | [] => [a.attr ++ [':']]
  | first :: rest =>
    (ljustWidth (a.attr ++ [':']) ++ first) ::
      (rest.zip a.continuationChars).map (fun p => p.2 :: contPadding ++ p.1)

/-- All physical lines of the rendering of an object. -/
def renderedAllLines (data : List AttributeLine) : List Str :=
  (data.map renderedLines).flatten

/-- Concatenate lines, terminating each with a newline. -/
def joinLinesNL (lines : List Str) : Str :=
  (lines.map (fun l => l ++ [nlChar])).flatten

/-! ## Basic lemmas about the list-insert primitive -/

theorem take_pyInsert (l : List AttributeLine) (a : AttributeLine) (i : Nat) :
    (l.take i ++ a :: l.drop i).take (i + 1) = l.take i ++ [a] := by
  rw [List.take_append_eq_append_take, List.take_take]
  have hmin : min (i + 1) i = i := by omega
  rw [hmin]
  have hlen : (l.take i).length = min i l.length := List.length_take i l
  rcases Nat.le_total i l.length with h | h
  · have : i + 1 - (l.take i).length = 1 := by omega
    rw [this]
    rfl
  · have hd : l.drop i = [] := List.drop_eq_nil_of_le h
    rw [hd]
    have : (a :: ([] : List AttributeLine)).take (i + 1 - (l.take i).length) =
        (a :: ([] : List AttributeLine)).take ((i + 1 - (l.take i).length - 1) + 1) := by
      congr 1
      omega
    rw [this, List.take_succ_cons, List.take_nil]

theorem drop_pyInsert (l : List AttributeLine) (a : AttributeLine) (i : Nat) :
    (l.take i ++ a :: l.drop i).drop (i + 1) = l.drop i := by
  rw [List.drop_append_eq_append_drop]
  have hlen : (l.take i).length = min i l.length := List.length_take i l
  have h1 : (l.take i).drop (i + 1) = [] := by
    apply List.drop_eq_nil_of_le
    omega
  rw [h1, List.nil_append]
  rcases Nat.le_total i l.length with h | h
  · have : i + 1 - (l.take i).length = 1 := by omega
    rw [this]
    rfl
  · have hd : l.drop i = [] := List.drop_eq_nil_of_le h
    rw [hd]
    have : (a :: ([] : List AttributeLine)).drop (i + 1 - (l.take i).length) =
        (a :: ([] : List AttributeLine)).drop ((i + 1 - (l.take i).length - 1) + 1) := by
      congr 1
      omega
    rw [this]
    simp

theorem insertNewValues_eq (attrName : Str) (vs : List Str) :
    ∀ (l : List AttributeLine) (i : Nat),
    insertNewValues attrName l i vs =
      l.take i ++ vs.map (fun v => ⟨attrName, v, []⟩) ++ l.drop i := by
  induction vs with
  | nil => intro l i; simp [insertNewValues]
  | cons v vs ih =>
      intro l i
      rw [insertNewValues, pyInsertAt, ih, take_pyInsert, drop_pyInsert]
      simp

/-! ## Lemmas about the cleaned_data dictionary -/

theorem cdGet_map_overwrite (k v k' : Str) (h : k' ≠ k) :
    ∀ cd : CleanedData,
    cdGet (cd.map (fun p => if p.1 = k then (k, v) else p)) k' = cdGet cd k' := by
  intro cd
  induction cd with
  | nil => rfl
  | cons p tl ih =>
      by_cases hp : p.1 = k
      · have hne : ¬ ((k, v).1 = k') := fun hkk => h (Eq.symm hkk)
        have hne' : ¬ (p.1 = k') := by
          rw [hp]
          exact fun hkk => h (Eq.symm hkk)
        simp only [List.map_cons, if_pos hp, cdGet, if_neg hne, if_neg hne']
        exact ih
      · simp only [List.map_cons, if_neg hp, cdGet]
        by_cases hk' : p.1 = k'
        · simp [hk']
        · simp only [if_neg hk']
          exact ih

theorem cdGet_append_single (k v k' : Str) (h : k' ≠ k) :
    ∀ cd : CleanedData, cdGet (cd ++ [(k, v)]) k' = cdGet cd k' := by
  intro cd
  induction cd with
  | nil =>
      have hne : ¬ (k = k') := fun hkk => h (Eq.symm hkk)
      simp [cdGet, hne]
  | cons p tl ih =>
      by_cases hk' : p.1 = k'
      · simp [cdGet, hk']
      · simp only [List.cons_append, cdGet, if_neg hk']
        exact ih

theorem cdGet_cdSet_ne (cd : CleanedData) (k v k' : Str) (h : k' ≠ k) :
    cdGet (cdSet cd k v) k' = cdGet cd k' := by
  unfold cdSet
  split
  · exact cdGet_map_overwrite k v k' h cd
  · exact cdGet_append_single k v k' h cd

/-! ## Claims C2, C7, C9, C10 -/

/-- C2: the claim states that for every input string every public
operation terminates without raising, malformed input being reported only
through accumulated messages.  The code violates this: a new-attribute
line without a colon makes the two-variable unpacking of
`line.split(":", maxsplit=1)` raise ValueError.  This theorem evaluates
the extraction at the failing input "abc": the result `none` is the model
of the raised exception. -/
theorem c2_missing_colon_raises : extractAttributesValues [] ("abc".data) = none := by
  decide

/-- C7: for every object, pk() computes exactly what the claim describes:
with one pk field that field's cleaned value (empty when missing)
upper-cased, with several the cleaned values in declared order joined
with a comma and the joined result upper-cased as a whole
(`pkFromSpecC7` is written from the claim's words). -/
theorem c7_pk (pkFields : List Str) (cd : CleanedData) :
    pk pkFields cd = pkFromSpecC7 pkFields cd := by
  match pkFields with
  | [] => simp [pk, pkFromSpecC7]
  | [f] => simp [pk, pkFromSpecC7]
  | f :: g :: rest => simp [pk, pkFromSpecC7]

/-- C9: the Mutator removes every stored line with the given name, inserts
one line per new value (empty fold markers) immediately after the first
remaining line, keeps all other lines in relative order, and writes
cleaned_data under the literal key "attribute", leaving every other
cleaned_data key unchanged. -/
theorem c9_update_attribute_value (data : List AttributeLine) (cd : CleanedData)
    (attrName : Str) (newValues : List Str) :
    (updateAttributeValue data cd attrName newValues).1 =
      (data.filter (fun a => decide (a.attr ≠ attrName))).take 1 ++
        newValues.map (fun v => ⟨attrName, v, []⟩) ++
        (data.filter (fun a => decide (a.attr ≠ attrName))).drop 1 ∧
    (updateAttributeValue data cd attrName newValues).2 =
      cdSet cd ("attribute".data) (pyJoin [nlChar] newValues) ∧
    (∀ k : Str, k ≠ "attribute".data →
      cdGet (updateAttributeValue data cd attrName newValues).2 k = cdGet cd k) := by
  refine ⟨?_, rfl, ?_⟩
  · unfold updateAttributeValue
    simp only
    exact insertNewValues_eq attrName newValues _ 1
  · intro k hk
    unfold updateAttributeValue
    simp only
    exact cdGet_cdSet_ne cd ("attribute".data) (pyJoin [nlChar] newValues) k hk

/-- Witness for C9 at the concrete object of the spec's mutation example,
with one pre-existing cleaned_data key checked unchanged. -/
theorem c9_witness :
    cdGet (updateAttributeValue
        [⟨"x".data, "1".data, []⟩, ⟨"r".data, "old".data, []⟩, ⟨"y".data, "2".data, []⟩]
        [("k".data, "w".data)] ("r".data) ["r1".data, "r2".data]).2 ("k".data) =
      some ("w".data) ∧
    (updateAttributeValue
        [⟨"x".data, "1".data, []⟩, ⟨"r".data, "old".data, []⟩, ⟨"y".data, "2".data, []⟩]
        [("k".data, "w".data)] ("r".data) ["r1".data, "r2".data]).1 =
      [⟨"x".data, "1".data, []⟩, ⟨"r".data, "r1".data, []⟩,
       ⟨"r".data, "r2".data, []⟩, ⟨"y".data, "2".data, []⟩] := by
  constructor
  · have h := (c9_update_attribute_value
        [⟨"x".data, "1".data, []⟩, ⟨"r".data, "old".data, []⟩, ⟨"y".data, "2".data, []⟩]
        [("k".data, "w".data)] ("r".data) ["r1".data, "r2".data]).2.2 ("k".data) (by decide)
    rw [h]
    decide
  · have h := (c9_update_attribute_value
        [⟨"x".data, "1".data, []⟩, ⟨"r".data, "old".data, []⟩, ⟨"y".data, "2".data, []⟩]
        [("k".data, "w".data)] ("r".data) ["r1".data, "r2".data]).1
    rw [h]
    decide

/-- C10: a field clean capability returning the empty string is treated
exactly like a failed clean: the occurrence is skipped, contributing
nothing to cleaned_data and leaving the stored raw value unrewritten
(the core records no message itself in either case; the capability owns
its messages). -/
theorem c10_empty_clean_like_failure
    (fields fields' : Str → Option RPSLTextField) (strict : Bool)
    (st : List AttributeLine × CleanedData) (a : AttributeLine)
    (f f' : RPSLTextField)
    (hf : fields a.attr = some f)
    (hf' : fields' a.attr = some f')
    (hclean : f.clean (normaliseRpslValue a.value) = some [])
    (hclean' : f'.clean (normaliseRpslValue a.value) = none) :
    cleanStep fields strict st a = (st.1 ++ [a], st.2) ∧
    cleanStep fields' strict st a = (st.1 ++ [a], st.2) := by
  constructor
  · by_cases hb : (strict || f.primary_key || f.lookup_key) = true
    · simp [cleanStep, hf, hclean, hb]
    · simp only [Bool.not_eq_true] at hb
      simp [cleanStep, hf, hb]
  · by_cases hb : (strict || f'.primary_key || f'.lookup_key) = true
    · simp [cleanStep, hf', hclean', hb]
    · simp only [Bool.not_eq_true] at hb
      simp [cleanStep, hf', hb]

/-- Witness for C10: one concrete occurrence cleaned to the empty string
and one with a failing capability, both leaving state untouched. -/
theorem c10_witness :
    cleanStep (fun _ => some ⟨false, false, false, false, fun _ => some []⟩) true
        ([], []) ⟨"a".data, "x".data, []⟩ = ([⟨"a".data, "x".data, []⟩], []) ∧
    cleanStep (fun _ => some ⟨false, false, false, false, fun _ => none⟩) true
        ([], []) ⟨"a".data, "x".data, []⟩ = ([⟨"a".data, "x".data, []⟩], []) := by
  have h := c10_empty_clean_like_failure
      (fun _ => some ⟨false, false, false, false, fun _ => some []⟩)
      (fun _ => some ⟨false, false, false, false, fun _ => none⟩) true ([], [])
      ⟨"a".data, "x".data, []⟩ ⟨false, false, false, false, fun _ => some []⟩
      ⟨false, false, false, false, fun _ => none⟩ rfl rfl rfl rfl
  simpa using h

/-! ## Lemmas about stripping -/

theorem head?_dropWhile_not (p : Char → Bool) :
    ∀ (l : Str) (c : Char), (l.dropWhile p).head? = some c → p c = false := by
  intro l
  induction l with
  | nil => intro c h; simp [List.dropWhile] at h
  | cons x xs ih =>
      intro c h
      by_cases hp : p x = true
      · rw [List.dropWhile_cons_of_pos hp] at h
        exact ih c h
      · rw [List.dropWhile_cons_of_neg hp] at h
        simp at h
        subst h
        simpa using hp

theorem mem_dropWhile (p : Char → Bool) (l : Str) : ∀ x ∈ l.dropWhile p, x ∈ l :=
  fun _ hx => (List.dropWhile_sublist p).subset hx

theorem mem_dropTrailing (p : Char → Bool) (l : Str) : ∀ x ∈ dropTrailing p l, x ∈ l := by
  intro x hx
  unfold dropTrailing at hx
  rw [List.mem_reverse] at hx
  have := mem_dropWhile p l.reverse x hx
  rwa [List.mem_reverse] at this

theorem mem_stripBoth (p : Char → Bool) (l : Str) : ∀ x ∈ stripBoth p l, x ∈ l := by
  intro x hx
  exact mem_dropWhile p l x (mem_dropTrailing p (l.dropWhile p) x hx)

theorem dropTrailing_getLast?_not (p : Char → Bool) (l : Str) (c : Char)
    (h : (dropTrailing p l).getLast? = some c) : p c = false := by
  unfold dropTrailing at h
  rw [List.getLast?_eq_head?_reverse, List.reverse_reverse] at h
  exact head?_dropWhile_not p l.reverse c h

theorem dropTrailing_cons (p : Char → Bool) (c : Char) (cs : Str) :
    dropTrailing p (c :: cs) =
      if (dropTrailing p cs).isEmpty && p c then [] else c :: dropTrailing p cs := by
  unfold dropTrailing
  rw [show (c :: cs).reverse = cs.reverse ++ [c] by simp, List.dropWhile_append]
  cases hcc : cs.reverse.dropWhile p with
  | nil =>
      simp only [hcc, List.isEmpty_nil, if_true, List.reverse_nil]
      by_cases hp : p c = true
      · simp [List.dropWhile, hp]
      · simp [List.dropWhile, hp]
  | cons a b =>
      simp only [hcc, List.isEmpty_cons, if_false, Bool.false_and, List.reverse_append,
        List.reverse_cons]
      simp

theorem dropWhile_dropTrailing_comm (p : Char → Bool) :
    ∀ l : Str, dropTrailing p (l.dropWhile p) = (dropTrailing p l).dropWhile p := by
  intro l
  induction l with
  | nil => rfl
  | cons c cs ih =>
      by_cases hp : p c = true
      · rw [List.dropWhile_cons_of_pos hp, ih, dropTrailing_cons]
        by_cases he : (dropTrailing p cs).isEmpty = true
        · have he' : dropTrailing p cs = [] := by
            cases hcc : dropTrailing p cs with
            | nil => rfl
            | cons a b => rw [hcc] at he; simp at he
          rw [he', if_pos (by simp [hp])]
        · rw [if_neg (by rw [Bool.and_eq_true]; rintro ⟨h1, _⟩; rw [h1] at he; simp at he),
            List.dropWhile_cons_of_pos hp]
      · rw [List.dropWhile_cons_of_neg hp, dropTrailing_cons,
          if_neg (by rw [Bool.and_eq_true]; rintro ⟨_, h2⟩; exact hp h2),
          List.dropWhile_cons_of_neg hp]

/-! ## Claim C8 -/

/-- C8 counterexample: the claim says normalisation trims surrounding
whitespace from each line, but the source strips only newline, comma and
space (`strip("\\n, ")`): a trailing tab survives.  At the multi-line
value "a TAB NEWLINE b" the code produces "a TAB , b" while the claim's
trimming produces "a,b". -/
theorem c8_counterexample :
    normaliseRpslValue ("a\t\nb".data) = ("a\t,b".data) ∧
    normaliseFromSpecC8 ("a\t\nb".data) = ("a,b".data) ∧
    normaliseRpslValue ("a\t\nb".data) ≠ normaliseFromSpecC8 ("a\t\nb".data) := by
  refine ⟨by decide, by decide, by decide⟩

/-- C8 amended: for every multi-line value, normalisation strips from each
physical line everything from the first hash onward, trims surrounding
space, newline and comma characters (not tabs or other whitespace),
discards lines that become empty, and joins the survivors with a comma
(`normaliseFromSpecC8Amended` is written from the amended words, trimming
the trailing end first and the leading end second). -/
theorem c8_normalise_amended (v : Str) (h : nlChar ∈ v) :
    normaliseRpslValue v = normaliseFromSpecC8Amended v := by
  unfold normaliseRpslValue normaliseFromSpecC8Amended
  rw [if_pos h]
  have hline : (fun line : Str => stripCommaNl (splitHashHead line)) = lineCleanAmendedC8 := by
    funext line
    have hcomm := dropWhile_dropTrailing_comm (fun c => c = '\n' || c = ',' || c = ' ')
      (line.takeWhile (fun c => decide (c ≠ '#')))
    simp only [stripCommaNl, lineCleanAmendedC8, splitHashHead, stripBoth, dropTrailing] at hcomm ⊢
    exact hcomm
  rw [hline]

/-- Witness for C8 at the concrete folded value of the claim. -/
theorem c8_witness :
    normaliseRpslValue ("192.0.2.0 #c1\n- #c2\n192.0.2.1 #c3".data) =
      ("192.0.2.0,-,192.0.2.1".data) ∧
    normaliseFromSpecC8Amended ("192.0.2.0 #c1\n- #c2\n192.0.2.1 #c3".data) =
      ("192.0.2.0,-,192.0.2.1".data) := by
  constructor
  · rw [c8_normalise_amended ("192.0.2.0 #c1\n- #c2\n192.0.2.1 #c3".data) (by decide)]
    decide
  · decide

/-! ## Lemmas about attribute names -/

theorem pyToLower_nameChar (c : Char) (h : isNameChar c = true) : pyToLower c = c := by
  unfold pyToLower
  rw [if_neg]
  rintro ⟨h1, h2⟩
  unfold isNameChar at h
  simp only [Bool.or_eq_true, Bool.and_eq_true, decide_eq_true_eq] at h
  rcases h with ((⟨ha, _⟩ | ⟨_, hb⟩) | hc) | hc
  · exact absurd h2 (not_le.mpr (lt_of_lt_of_le (by decide : 'Z' < 'a') ha))
  · exact absurd h1 (not_le.mpr (lt_of_le_of_lt hb (by decide : '9' < 'A')))
  · subst hc; exact absurd h2 (by decide)
  · subst hc; exact absurd h1 (by decide)

theorem map_pyToLower_id (t : Str) (hall : ∀ x ∈ t, isNameChar x = true) :
    t.map pyToLower = t := by
  induction t with
  | nil => rfl
  | cons c cs ih =>
      rw [List.map_cons, pyToLower_nameChar c (hall c (List.mem_cons_self c cs)),
        ih (fun x hx => hall x (List.mem_cons_of_mem c hx))]

theorem pyLower_nameOk (t : Str) (h : attrNameOk t = true) : pyLower t = t := by
  unfold attrNameOk at h
  rw [Bool.and_eq_true] at h
  have hall := h.2
  rw [List.all_eq_true] at hall
  exact map_pyToLower_id t hall

theorem nameChar_not_cont (c : Char) (h : isNameChar c = true) : c ∉ contStartChars := by
  intro hmem
  unfold contStartChars at hmem
  rcases List.mem_cons.mp hmem with rfl | hmem
  · exact absurd h (by decide)
  rcases List.mem_cons.mp hmem with rfl | hmem
  · exact absurd h (by decide)
  rcases List.mem_cons.mp hmem with rfl | hmem
  · exact absurd h (by decide)
  · exact absurd hmem (List.not_mem_nil c)

theorem nameChar_ne_colon (c : Char) (h : isNameChar c = true) : c ≠ ':' := by
  intro hc
  subst hc
  exact absurd h (by decide)

theorem nameChar_not_space (c : Char) (h : isNameChar c = true) : isPySpace c = false := by
  cases hps : isPySpace c
  · rfl
  · exfalso
    unfold isPySpace at hps
    simp only [Bool.or_eq_true, decide_eq_true_eq] at hps
    rcases hps with ((((rfl | rfl) | rfl) | rfl) | rfl) | rfl <;> exact absurd h (by decide)

theorem attrNameOk_ne_nil (t : Str) (h : attrNameOk t = true) : t ≠ [] := by
  intro ht
  subst ht
  exact absurd h (by decide)

theorem splitColonAux_append (a b : Str) (h : ':' ∉ a) :
    splitColonAux (a ++ ':' :: b) = some (a, b) := by
  induction a with
  | nil => simp [splitColonAux]
  | cons c a' ih =>
      have hc : ¬ (c = ':') := fun hcc => h (hcc ▸ List.mem_cons_self c a')
      have h' : ':' ∉ a' := fun hmem => h (List.mem_cons_of_mem c hmem)
      rw [List.cons_append]
      unfold splitColonAux
      rw [if_neg hc, ih h']

theorem splitColonAux_eq (l a b : Str) (h : splitColonAux l = some (a, b)) :
    l = a ++ ':' :: b := by
  induction l generalizing a b with
  | nil => simp [splitColonAux] at h
  | cons c cs ih =>
      unfold splitColonAux at h
      by_cases hc : c = ':'
      · rw [if_pos hc] at h
        simp only [Option.some.injEq, Prod.mk.injEq] at h
        obtain ⟨rfl, rfl⟩ := h
        subst hc
        rfl
      · rw [if_neg hc] at h
        cases hsub : splitColonAux cs with
        | none => rw [hsub] at h; simp at h
        | some p =>
            obtain ⟨a', b'⟩ := p
            rw [hsub] at h
            simp only [Option.some.injEq, Prod.mk.injEq] at h
            obtain ⟨rfl, rfl⟩ := h
            rw [List.cons_append, ih a' b' hsub]

/-! ## Claim C5 -/

theorem attrNameOk_append_space (t : Str) : attrNameOk (t ++ [' ']) = false := by
  cases h : attrNameOk (t ++ [' '])
  · rfl
  · exfalso
    unfold attrNameOk at h
    rw [Bool.and_eq_true, List.all_eq_true] at h
    have := h.2 ' ' (List.mem_append_right t (List.mem_singleton_self ' '))
    exact absurd this (by decide)

/-- C5 counterexample: the claim says the attribute name is both
lowercased and trimmed, so that a token followed by whitespace before the
colon yields the same name as one without.  On "a :x" the code keeps the
space: the name "a " fails the name pattern and extraction halts with a
malformed-name error, unlike "a:x"; and with a schema allowing the name
"a " the stored name keeps the space. -/
theorem c5_counterexample :
    extractAttributesValues [] ("a :x".data) =
      some ([], [RPSLErr.malformedAttrName 1 ['a', ' ']]) ∧
    extractAttributesValues [] ("a:x".data) =
      some ([⟨"a".data, "x".data, []⟩], []) ∧
    extractAttributesValues [("a ".data)] ("A :x".data) =
      some ([⟨['a', ' '], "x".data, []⟩], []) ∧
    (['a', ' '] : Str) ≠ ("a".data) := by
  refine ⟨by decide, by decide, by decide, by decide⟩

/-- C5 amended: a new-attribute line is split at the first colon and the
name is lowercased but NOT trimmed: a name token of the name pattern
followed directly by the colon is stored as is, while the same token
followed by a space before the colon produces the name with the space
kept, which (when not in attrs_allowed) is rejected as malformed and
halts extraction. -/
theorem c5_name_lowercased_not_trimmed
    (attrsAllowed : List Str) (s : ExtState) (t rest : Str)
    (ht : attrNameOk t = true)
    (hmem : t ++ [' '] ∉ attrsAllowed) :
    stepLine attrsAllowed s (t ++ ':' :: rest) =
      .cont ⟨s.lineNo + 1, some t, pyStrip rest, [], flushData s⟩ ∧
    stepLine attrsAllowed s (t ++ ' ' :: ':' :: rest) =
      .halt (flushData s) [.malformedAttrName (s.lineNo + 1) (t ++ [' '])] := by
  have hne := attrNameOk_ne_nil t ht
  have hall : ∀ x ∈ t, isNameChar x = true := by
    have h2 := (Bool.and_eq_true _ _).mp ht
    exact List.all_eq_true.mp h2.2
  cases t with
  | nil => exact absurd rfl hne
  | cons c t' =>
      have hcn : isNameChar c = true := hall c (List.mem_cons_self c t')
      constructor
      · have hcolon : ':' ∉ c :: t' := fun hm => nameChar_ne_colon _ (hall _ hm) rfl
        have hsplit := splitColonAux_append (c :: t') rest hcolon
        rw [List.cons_append] at hsplit
        rw [List.cons_append]
        simp only [stepLine]
        rw [if_neg (nameChar_not_cont c hcn), hsplit]
        simp only [pyLower_nameOk _ ht]
        rw [if_neg]
        rintro ⟨_, hb⟩
        rw [ht] at hb
        exact Bool.noConfusion hb
      · have hcolon : ':' ∉ (c :: t') ++ [' '] := by
          intro hm
          rcases List.mem_append.mp hm with hm | hm
          · exact nameChar_ne_colon _ (hall _ hm) rfl
          · simp at hm
        have hsplit := splitColonAux_append ((c :: t') ++ [' ']) rest hcolon
        have hshape : ((c :: t') ++ [' ']) ++ ':' :: rest = c :: (t' ++ ' ' :: ':' :: rest) := by
          simp
        rw [hshape] at hsplit
        rw [List.cons_append]
        simp only [stepLine]
        rw [if_neg (nameChar_not_cont c hcn), hsplit]
        have hlow : pyLower ((c :: t') ++ [' ']) = (c :: t') ++ [' '] := by
          unfold pyLower
          rw [List.map_append, map_pyToLower_id (c :: t') hall]
          rfl
        simp only [hlow]
        rw [if_pos]
        exact ⟨hmem, attrNameOk_append_space (c :: t')⟩

/-- Witness for C5 at the token "a" and rest "x". -/
theorem c5_witness :
    stepLine [] initExtState ("a".data ++ ':' :: "x".data) =
      .cont ⟨1, some ("a".data), "x".data, [], []⟩ ∧
    stepLine [] initExtState ("a".data ++ ' ' :: ':' :: "x".data) =
      .halt [] [.malformedAttrName 1 ("a".data ++ [' '])] := by
  have h := c5_name_lowercased_not_trimmed [] initExtState ("a".data) ("x".data)
    (by decide) (by decide)
  exact ⟨h.1.trans (by decide), h.2.trans (by decide)⟩

/-! ## Claim C3 -/

theorem runLines_append_of_runCont (attrsAllowed : List Str) (pre : List Str) :
    ∀ (s s' : ExtState), runCont attrsAllowed s pre = some s' →
    ∀ rest, runLines attrsAllowed s (pre ++ rest) = runLines attrsAllowed s' rest := by
  induction pre with
  | nil =>
      intro s s' h rest
      simp only [runCont, Option.some.injEq] at h
      subst h
      rfl
  | cons l ls ih =>
      intro s s' h rest
      unfold runCont at h
      cases hstep : stepLine attrsAllowed s l with
      | cont s1 =>
          rw [hstep] at h
          simp only [List.cons_append, runLines, hstep]
          exact ih s1 s' h rest
      | halt d e => rw [hstep] at h; simp at h
      | exc => rw [hstep] at h; simp at h

/-- C3 counterexample: the claim says the attribute occurrence
immediately preceding the blank line is kept; the code returns without
flushing it, so on "a: 1 BLANK b: 2" the result holds no occurrence at
all, with one structural error. -/
theorem c3_counterexample :
    extractAttributesValues [] ("a: 1\n\nb: 2".data) =
      some ([], [RPSLErr.emptyLine 2]) ∧
    ([] : List AttributeLine) ≠ [⟨"a".data, "1".data, []⟩] := by
  exact ⟨by decide, by decide⟩

/-- C3 amended: for every text with an empty line mid-object, extraction
yields exactly the occurrences completed (flushed) before the blank line
- the pending occurrence immediately preceding the blank line is
discarded - records exactly one structural error for the empty line, and
processes no line after it (the lines after the blank are arbitrary). -/
theorem c3_blank_line_halts (attrsAllowed : List Str) (text : Str)
    (pre post : List Str) (s' : ExtState)
    (hsplit : splitlinesPy (pyStrip text) = pre ++ [] :: post)
    (hrun : runCont attrsAllowed initExtState pre = some s') :
    extractAttributesValues attrsAllowed text =
      some (s'.objectData, [RPSLErr.emptyLine (s'.lineNo + 1)]) := by
  unfold extractAttributesValues
  rw [hsplit, runLines_append_of_runCont attrsAllowed pre initExtState s' hrun ([] :: post)]
  simp [runLines, stepLine]

/-- Witness for C3 at the structural-halt example of the spec. -/
theorem c3_witness :
    extractAttributesValues [] ("a: 1\n\nb: 2".data) =
      some ([], [RPSLErr.emptyLine 2]) := by
  have h := c3_blank_line_halts [] ("a: 1\n\nb: 2".data) ["a: 1".data] ["b: 2".data]
    ⟨1, some ("a".data), "1".data, [], []⟩ (by decide) (by decide)
  exact h.trans (by decide)

/-! ## Claim C6: cardinality validation -/

theorem firstOccs_mem : ∀ (l : List Str) (a : Str), a ∈ firstOccs l ↔ a ∈ l := by
  intro l
  induction l using firstOccs.induct with
  | case1 => intro a; simp [firstOccs]
  | case2 b rest ih =>
      intro a
      rw [firstOccs]
      constructor
      · intro h
        rcases List.mem_cons.mp h with rfl | h
        · exact List.mem_cons_self a _
        · have := (ih a).mp h
          exact List.mem_cons_of_mem b (List.mem_filter.mp this).1
      · intro h
        rcases List.mem_cons.mp h with rfl | h
        · exact List.mem_cons_self a _
        · by_cases hab : a = b
          · subst hab; exact List.mem_cons_self a _
          · exact List.mem_cons_of_mem b ((ih a).mpr (List.mem_filter.mpr ⟨h, by simp [hab]⟩))

theorem firstOccs_nodup : ∀ l : List Str, (firstOccs l).Nodup := by
  intro l
  induction l using firstOccs.induct with
  | case1 => simp [firstOccs]
  | case2 b rest ih =>
      rw [firstOccs]
      rw [List.nodup_cons]
      refine ⟨?_, ih⟩
      intro hmem
      have := (firstOccs_mem _ b).mp hmem
      have := (List.mem_filter.mp this).2
      simp at this

theorem count_flatten_map_of_nodup (f : Str → List RPSLErr) (e : RPSLErr) (k : Str)
    (hk : ∀ x, x ≠ k → (f x).count e = 0) :
    ∀ P : List Str, P.Nodup →
    ((P.map f).flatten).count e = if k ∈ P then (f k).count e else 0 := by
  intro P
  induction P with
  | nil => intro _; simp
  | cons x tl ih =>
      intro hnd
      obtain ⟨hx, htl⟩ := List.nodup_cons.mp hnd
      rw [List.map_cons, List.flatten_cons, List.count_append, ih htl]
      by_cases hxk : x = k
      · subst hxk
        rw [if_pos (List.mem_cons_self x tl), if_neg (fun hm : x ∈ tl => hx hm)]
        omega
      · rw [hk x hxk]
        by_cases hkt : k ∈ tl
        · rw [if_pos hkt, if_pos (List.mem_cons_of_mem x hkt)]
          omega
        · rw [if_neg hkt, if_neg (fun hm => hkt (by
            rcases List.mem_cons.mp hm with h | h
            · exact absurd h.symm hxk
            · exact h))]

theorem cardinalityMsgs_unrec (attrsAllowed attrsMultiple names : List Str) (a : Str)
    (P : List Str) (hnd : P.Nodup) :
    ((P.map (fun x =>
        (if x ∉ attrsAllowed then [RPSLErr.unrecognisedAttr x] else []) ++
        (if names.count x > 1 ∧ x ∉ attrsMultiple then [RPSLErr.multipleTimes x] else []))).flatten).count
      (RPSLErr.unrecognisedAttr a) = if a ∈ P ∧ a ∉ attrsAllowed then 1 else 0 := by
  rw [count_flatten_map_of_nodup _ _ a (by
    intro x hxk
    rw [List.count_append]
    have h1 : (if x ∉ attrsAllowed then [RPSLErr.unrecognisedAttr x] else []).count
        (RPSLErr.unrecognisedAttr a) = 0 := by
      split
      · simp [List.count_cons, hxk]
      · simp
    have h2 : (if names.count x > 1 ∧ x ∉ attrsMultiple then [RPSLErr.multipleTimes x] else []).count
        (RPSLErr.unrecognisedAttr a) = 0 := by
      split
      · simp [List.count_cons]
      · simp
    rw [h1, h2]) P hnd]
  rw [List.count_append]
  have h2 : (if names.count a > 1 ∧ a ∉ attrsMultiple then [RPSLErr.multipleTimes a] else []).count
      (RPSLErr.unrecognisedAttr a) = 0 := by
    split
    · simp [List.count_cons]
    · simp
  rw [h2]
  by_cases hal : a ∈ attrsAllowed
  · rw [if_neg (show ¬ a ∉ attrsAllowed from not_not_intro hal),
      if_neg (show ¬ (a ∈ P ∧ a ∉ attrsAllowed) from fun hand => hand.2 hal)]
    simp
  · rw [if_pos hal]
    by_cases hp : a ∈ P
    · rw [if_pos hp, if_pos ⟨hp, hal⟩]
      simp [List.count_cons]
    · rw [if_neg hp, if_neg (fun hand => hp hand.1)]

theorem cardinalityMsgs_mult (attrsAllowed attrsMultiple names : List Str) (a : Str)
    (P : List Str) (hnd : P.Nodup) :
    ((P.map (fun x =>
        (if x ∉ attrsAllowed then [RPSLErr.unrecognisedAttr x] else []) ++
        (if names.count x > 1 ∧ x ∉ attrsMultiple then [RPSLErr.multipleTimes x] else []))).flatten).count
      (RPSLErr.multipleTimes a) =
    if a ∈ P ∧ names.count a > 1 ∧ a ∉ attrsMultiple then 1 else 0 := by
  rw [count_flatten_map_of_nodup _ _ a (by
    intro x hxk
    rw [List.count_append]
    have h1 : (if x ∉ attrsAllowed then [RPSLErr.unrecognisedAttr x] else []).count
        (RPSLErr.multipleTimes a) = 0 := by
      split
      · simp [List.count_cons]
      · simp
    have h2 : (if names.count x > 1 ∧ x ∉ attrsMultiple then [RPSLErr.multipleTimes x] else []).count
        (RPSLErr.multipleTimes a) = 0 := by
      split
      · simp [List.count_cons, hxk]
      · simp
    rw [h1, h2]) P hnd]
  rw [List.count_append]
  have h1 : (if a ∉ attrsAllowed then [RPSLErr.unrecognisedAttr a] else []).count
      (RPSLErr.multipleTimes a) = 0 := by
    split
    · simp [List.count_cons]
    · simp
  rw [h1]
  by_cases hc : names.count a > 1 ∧ a ∉ attrsMultiple
  · rw [if_pos hc]
    by_cases hp : a ∈ P
    · rw [if_pos hp, if_pos ⟨hp, hc⟩]
      simp [List.count_cons]
    · rw [if_neg hp, if_neg (fun hand => hp hand.1)]
  · rw [if_neg hc]
    rw [if_neg (show ¬ (a ∈ P ∧ names.count a > 1 ∧ a ∉ attrsMultiple) from fun hand => hc hand.2)]
    by_cases hp : a ∈ P <;> simp [hp]

theorem missingMsgs_count (names : List Str) (a : Str) :
    ∀ required : List Str, required.Nodup →
    (((required.filter (fun r => decide (r ∉ names))).map RPSLErr.missingMandatory).count
      (RPSLErr.missingMandatory a)) = if a ∈ required ∧ a ∉ names then 1 else 0 := by
  intro required
  induction required with
  | nil => intro _; simp
  | cons r tl ih =>
      intro hnd
      obtain ⟨hr, htl⟩ := List.nodup_cons.mp hnd
      by_cases hrn : r ∈ names
      · rw [List.filter_cons_of_neg (by simpa using hrn), ih htl]
        by_cases hra : r = a
        · subst hra
          rw [if_neg (show ¬ (r ∈ tl ∧ r ∉ names) from fun hand => hr hand.1),
            if_neg (show ¬ (r ∈ r :: tl ∧ r ∉ names) from fun hand => hand.2 hrn)]
        · have hiff : (a ∈ r :: tl ∧ a ∉ names) ↔ (a ∈ tl ∧ a ∉ names) := by
            constructor
            · rintro ⟨hm, h2⟩
              rcases List.mem_cons.mp hm with rfl | hm
              · exact absurd rfl hra
              · exact ⟨hm, h2⟩
            · rintro ⟨hm, h2⟩
              exact ⟨List.mem_cons_of_mem r hm, h2⟩
          rw [if_congr hiff rfl rfl]
      · rw [List.filter_cons_of_pos (by simpa using hrn), List.map_cons, List.count_cons, ih htl]
        by_cases hra : r = a
        · subst hra
          rw [if_neg (show ¬ (r ∈ tl ∧ r ∉ names) from fun hand => hr hand.1)]
          rw [if_pos (show r ∈ r :: tl ∧ r ∉ names from ⟨List.mem_cons_self r tl, hrn⟩)]
          simp [hrn]
        · have hbeq : (RPSLErr.missingMandatory r == RPSLErr.missingMandatory a) = false := by
            simp [hra]
          rw [hbeq]
          have hiff : (a ∈ r :: tl ∧ a ∉ names) ↔ (a ∈ tl ∧ a ∉ names) := by
            constructor
            · rintro ⟨hm, h2⟩
              rcases List.mem_cons.mp hm with rfl | hm
              · exact absurd rfl hra
              · exact ⟨hm, h2⟩
            · rintro ⟨hm, h2⟩
              exact ⟨List.mem_cons_of_mem r hm, h2⟩
          rw [if_congr hiff rfl rfl]
          simp

theorem missing_not_in_flatten (attrsAllowed attrsMultiple names : List Str) (r : Str)
    (P : List Str) :
    ((P.map (fun x =>
        (if x ∉ attrsAllowed then [RPSLErr.unrecognisedAttr x] else []) ++
        (if names.count x > 1 ∧ x ∉ attrsMultiple then [RPSLErr.multipleTimes x] else []))).flatten).count
      (RPSLErr.missingMandatory r) = 0 := by
  rw [List.count_eq_zero]
  intro hmem
  rw [List.mem_flatten] at hmem
  obtain ⟨chunk, hchunk, hmem⟩ := hmem
  rw [List.mem_map] at hchunk
  obtain ⟨x, _, rfl⟩ := hchunk
  rcases List.mem_append.mp hmem with h | h
  · split at h <;> simp at h
  · split at h <;> simp at h

theorem unrec_not_in_missing_map (names required : List Str) (a : Str) :
    (((required.filter (fun r => decide (r ∉ names))).map RPSLErr.missingMandatory).count
      (RPSLErr.unrecognisedAttr a)) = 0 := by
  rw [List.count_eq_zero]
  intro hmem
  rw [List.mem_map] at hmem
  obtain ⟨x, _, hx⟩ := hmem
  exact RPSLErr.noConfusion hx

theorem mult_not_in_missing_map (names required : List Str) (a : Str) :
    (((required.filter (fun r => decide (r ∉ names))).map RPSLErr.missingMandatory).count
      (RPSLErr.multipleTimes a)) = 0 := by
  rw [List.count_eq_zero]
  intro hmem
  rw [List.mem_map] at hmem
  obtain ⟨x, _, hx⟩ := hmem
  exact RPSLErr.noConfusion hx

/-- C6: under strict validation the cardinality checker records exactly
one unrecognised-attribute error per distinct present name not in
attrs_allowed, exactly one occurs-multiple-times error per distinct name
occurring more than once and not in attrs_multiple, and exactly one
mandatory-missing error per required name absent, all in one pass with
none suppressing the others (the counts hold simultaneously for every
name), while under non-strict validation no cardinality check runs. -/
theorem c6_cardinality (attrsAllowed attrsMultiple attrsRequired : List Str)
    (data : List AttributeLine) (hreq : attrsRequired.Nodup) :
    (∀ a : Str,
      (validateAttributeCounts attrsAllowed attrsMultiple attrsRequired data).count
          (RPSLErr.unrecognisedAttr a) =
        if a ∈ data.map (fun x => x.attr) ∧ a ∉ attrsAllowed then 1 else 0) ∧
    (∀ a : Str,
      (validateAttributeCounts attrsAllowed attrsMultiple attrsRequired data).count
          (RPSLErr.multipleTimes a) =
        if (data.map (fun x => x.attr)).count a > 1 ∧ a ∉ attrsMultiple then 1 else 0) ∧
    (∀ r : Str,
      (validateAttributeCounts attrsAllowed attrsMultiple attrsRequired data).count
          (RPSLErr.missingMandatory r) =
        if r ∈ attrsRequired ∧ r ∉ data.map (fun x => x.attr) then 1 else 0) ∧
    (∀ fields,
      (validateObject fields attrsAllowed attrsMultiple attrsRequired true data).2.2 =
        validateAttributeCounts attrsAllowed attrsMultiple attrsRequired data) ∧
    (∀ fields,
      (validateObject fields attrsAllowed attrsMultiple attrsRequired false data).2.2 = []) := by
  refine ⟨?_, ?_, ?_, ?_, ?_⟩
  · intro a
    unfold validateAttributeCounts
    rw [List.count_append, unrec_not_in_missing_map,
      cardinalityMsgs_unrec attrsAllowed attrsMultiple (data.map (fun x => x.attr)) a
        (firstOccs (data.map (fun x => x.attr))) (firstOccs_nodup _)]
    rw [if_congr (and_congr_left' (firstOccs_mem (data.map (fun x => x.attr)) a)) rfl rfl]
    omega
  · intro a
    unfold validateAttributeCounts
    rw [List.count_append, mult_not_in_missing_map,
      cardinalityMsgs_mult attrsAllowed attrsMultiple (data.map (fun x => x.attr)) a
        (firstOccs (data.map (fun x => x.attr))) (firstOccs_nodup _)]
    have hiff : (a ∈ firstOccs (data.map (fun x => x.attr)) ∧
        (data.map (fun x => x.attr)).count a > 1 ∧ a ∉ attrsMultiple) ↔
        ((data.map (fun x => x.attr)).count a > 1 ∧ a ∉ attrsMultiple) := by
      constructor
      · exact fun h => h.2
      · intro h
        refine ⟨?_, h⟩
        rw [firstOccs_mem]
        exact List.count_pos_iff.mp (by omega)
    rw [if_congr hiff rfl rfl]
    omega
  · intro r
    unfold validateAttributeCounts
    rw [List.count_append, missing_not_in_flatten,
      missingMsgs_count (data.map (fun x => x.attr)) r attrsRequired hreq]
    omega
  · intro fields
    simp [validateObject]
  · intro fields
    simp [validateObject]

/-- Witness for C6: an object with an unknown attribute twice, against a
schema with allowed a,b,c, multiple b, required a. -/
theorem c6_witness :
    (validateAttributeCounts ["a".data, "b".data, "c".data] ["b".data] ["a".data]
        [⟨"d".data, "1".data, []⟩, ⟨"d".data, "2".data, []⟩]).count
      (RPSLErr.unrecognisedAttr ("d".data)) = 1 ∧
    (validateAttributeCounts ["a".data, "b".data, "c".data] ["b".data] ["a".data]
        [⟨"d".data, "1".data, []⟩, ⟨"d".data, "2".data, []⟩]).count
      (RPSLErr.multipleTimes ("d".data)) = 1 ∧
    (validateAttributeCounts ["a".data, "b".data, "c".data] ["b".data] ["a".data]
        [⟨"d".data, "1".data, []⟩, ⟨"d".data, "2".data, []⟩]).count
      (RPSLErr.missingMandatory ("a".data)) = 1 ∧
    (validateObject (fun _ => none) ["a".data, "b".data, "c".data] ["b".data] ["a".data]
        false [⟨"d".data, "1".data, []⟩, ⟨"d".data, "2".data, []⟩]).2.2 = [] := by
  have h := c6_cardinality ["a".data, "b".data, "c".data] ["b".data] ["a".data]
    [⟨"d".data, "1".data, []⟩, ⟨"d".data, "2".data, []⟩] (by decide)
  exact ⟨(h.1 ("d".data)).trans (by decide), (h.2.1 ("d".data)).trans (by decide),
    (h.2.2.1 ("a".data)).trans (by decide), h.2.2.2.2 (fun _ => none)⟩

/-! ## Lemmas about splitting at a character -/

theorem splitChar_ne_nil (sep : Char) : ∀ l : Str, splitChar sep l ≠ [] := by
  intro l
  cases l with
  | nil => simp [splitChar]
  | cons c cs =>
      unfold splitChar
      cases splitChar sep cs with
      | nil => simp
      | cons r rs =>
          by_cases hc : c = sep
          · simp [hc]
          · simp [hc]

theorem splitChar_cons_of_eq (sep c : Char) (cs : Str) (r : Str) (rs : List Str)
    (hs : splitChar sep cs = r :: rs) :
    splitChar sep (c :: cs) = if c = sep then [] :: r :: rs else (c :: r) :: rs := by
  unfold splitChar
  rw [hs]

theorem length_splitChar (sep : Char) : ∀ l : Str,
    (splitChar sep l).length = l.count sep + 1 := by
  intro l
  induction l with
  | nil => simp [splitChar]
  | cons c cs ih =>
      cases hs : splitChar sep cs with
      | nil => exact absurd hs (splitChar_ne_nil sep cs)
      | cons r rs =>
          rw [splitChar_cons_of_eq sep c cs r rs hs]
          rw [hs] at ih
          by_cases hc : c = sep
          · subst hc
            rw [if_pos rfl]
            simp only [List.length_cons, List.count_cons, beq_self_eq_true, if_true] at ih ⊢
            omega
          · rw [if_neg hc]
            have hbe : (c == sep) = false := by simpa using hc
            simp only [List.length_cons, List.count_cons, hbe, Bool.false_eq_true, if_false] at ih ⊢
            omega

theorem splitChar_no_sep (sep : Char) : ∀ l : Str, sep ∉ l → splitChar sep l = [l] := by
  intro l
  induction l with
  | nil => intro _; rfl
  | cons c cs ih =>
      intro h
      have hc : ¬ (c = sep) := fun hcc => h (hcc ▸ List.mem_cons_self c cs)
      have hcs : sep ∉ cs := fun hm => h (List.mem_cons_of_mem c hm)
      rw [splitChar_cons_of_eq sep c cs cs [] (ih hcs), if_neg hc]

theorem splitChar_append_sep (sep : Char) (t : Str) (ht : sep ∉ t) :
    ∀ v : Str, splitChar sep (v ++ sep :: t) = splitChar sep v ++ [t] := by
  intro v
  induction v with
  | nil =>
      simp only [List.nil_append]
      rw [splitChar_cons_of_eq sep sep t t [] (splitChar_no_sep sep t ht), if_pos rfl]
      rfl
  | cons c v' ih =>
      rw [List.cons_append]
      cases hs : splitChar sep v' with
      | nil => exact absurd hs (splitChar_ne_nil sep v')
      | cons r rs =>
          have hs2 : splitChar sep (v' ++ sep :: t) = r :: (rs ++ [t]) := by
            rw [ih, hs]
            rfl
          rw [splitChar_cons_of_eq sep c _ r (rs ++ [t]) hs2,
            splitChar_cons_of_eq sep c v' r rs hs]
          by_cases hc : c = sep
          · simp [hc]
          · simp [hc]

theorem mem_splitChar_no_sep (sep : Char) :
    ∀ (l : Str) (s : Str), s ∈ splitChar sep l → sep ∉ s := by
  intro l
  induction l with
  | nil =>
      intro s hs
      simp [splitChar] at hs
      subst hs
      simp
  | cons c cs ih =>
      intro s hs
      cases hh : splitChar sep cs with
      | nil => exact absurd hh (splitChar_ne_nil sep cs)
      | cons r rs =>
          rw [splitChar_cons_of_eq sep c cs r rs hh] at hs
          by_cases hc : c = sep
          · rw [if_pos hc] at hs
            rcases List.mem_cons.mp hs with rfl | hs
            · simp
            · exact ih s (hh ▸ hs)
          · rw [if_neg hc] at hs
            rcases List.mem_cons.mp hs with rfl | hs
            · intro hmem
              rcases List.mem_cons.mp hmem with rfl | hmem
              · exact hc rfl
              · have := ih r (hh ▸ List.mem_cons_self r rs)
                exact this hmem
            · exact ih s (hh ▸ List.mem_cons_of_mem r hs)

theorem pyJoin_splitChar (sep : Char) : ∀ v : Str, pyJoin [sep] (splitChar sep v) = v := by
  intro v
  induction v with
  | nil => rfl
  | cons c cs ih =>
      cases hs : splitChar sep cs with
      | nil => exact absurd hs (splitChar_ne_nil sep cs)
      | cons r rs =>
          rw [hs] at ih
          rw [splitChar_cons_of_eq sep c cs r rs hs]
          by_cases hc : c = sep
          · subst hc
            simp only [if_pos rfl]
            cases rs with
            | nil => simpa [pyJoin] using ih
            | cons r2 rs2 => simpa [pyJoin] using ih
          · rw [if_neg hc]
            cases rs with
            | nil => simpa [pyJoin] using ih
            | cons r2 rs2 =>
                simp only [pyJoin, List.cons_append] at ih ⊢
                rw [← ih]

/-! ## Newline counting under replace and normalise -/

theorem count_pyReplaceCore (pat rep : Str) (hpne : pat ≠ [])
    (hp : nlChar ∉ pat) (hr : nlChar ∉ rep) :
    ∀ (n : Nat) (s : Str), s.length ≤ n →
    (pyReplaceCore pat rep s).count nlChar = s.count nlChar := by
  intro n
  induction n with
  | zero =>
      intro s hs
      have : s = [] := List.eq_nil_of_length_eq_zero (Nat.le_zero.mp hs)
      subst this
      simp [pyReplaceCore]
  | succ n ih =>
      intro s hs
      match s with
      | [] => simp [pyReplaceCore]
      | c :: cs =>
          rw [pyReplaceCore]
          split
          · rename_i hcond
            obtain ⟨_, hpre⟩ := hcond
            have hpfx : pat <+: (c :: cs) := by
              rwa [← List.isPrefixOf_iff_prefix]
            obtain ⟨t, ht⟩ := hpfx
            have hplen : 1 ≤ pat.length := by
              cases pat with
              | nil => exact absurd rfl hpne
              | cons p ps => simp
            have hdrop : cs.drop (pat.length - 1) = t := by
              have h1 : (c :: cs).drop pat.length = t := by
                rw [← ht, List.drop_left]
              have h2 : (c :: cs).drop pat.length = cs.drop (pat.length - 1) := by
                obtain ⟨k, hk⟩ : ∃ k, pat.length = k + 1 := ⟨pat.length - 1, by omega⟩
                rw [hk, List.drop_succ_cons]
                simp
              rw [← h2, h1]
            have htlen : t.length ≤ n := by
              have := congrArg List.length ht
              simp [List.length_append] at this
              simp at hs
              omega
            rw [List.count_append, hdrop, ih t htlen,
              List.count_eq_zero_of_not_mem hr, ← ht, List.count_append,
              List.count_eq_zero_of_not_mem hp]
          · rename_i hcond
            have hlen : cs.length ≤ n := by simp at hs; omega
            rw [List.count_cons, List.count_cons, ih cs hlen]

theorem count_pyReplace (v pat rep : Str) (hp : nlChar ∉ pat) (hr : nlChar ∉ rep) :
    (pyReplace v pat rep).count nlChar = v.count nlChar := by
  unfold pyReplace
  split
  · rw [List.count_append, List.count_eq_zero_of_not_mem hr, Nat.zero_add]
    induction v with
    | nil => simp
    | cons c cs ih =>
        simp only [List.map_cons, List.flatten_cons, List.count_append, List.count_cons,
          List.count_cons, ih]
        rw [List.count_eq_zero_of_not_mem hr]
        omega
  · rename_i hpne
    exact count_pyReplaceCore pat rep hpne hp hr v.length v (Nat.le_refl _)

theorem mem_pyJoin (sep : Str) :
    ∀ (parts : List Str) (x : Char), x ∈ pyJoin sep parts →
    x ∈ sep ∨ ∃ p ∈ parts, x ∈ p := by
  intro parts
  induction parts with
  | nil => intro x hx; simp [pyJoin] at hx
  | cons a rest ih =>
      intro x hx
      cases rest with
      | nil =>
          simp only [pyJoin] at hx
          exact Or.inr ⟨a, List.mem_cons_self a [], hx⟩
      | cons b rest2 =>
          simp only [pyJoin] at hx
          rcases List.mem_append.mp hx with h | h
          · rcases List.mem_append.mp h with h | h
            · exact Or.inr ⟨a, List.mem_cons_self a _, h⟩
            · exact Or.inl h
          · rcases ih x h with h | ⟨p, hp, hxp⟩
            · exact Or.inl h
            · exact Or.inr ⟨p, List.mem_cons_of_mem a hp, hxp⟩

theorem mem_takeWhile_subset (p : Char → Bool) (l : Str) :
    ∀ x ∈ l.takeWhile p, x ∈ l :=
  fun _ hx => (List.takeWhile_sublist p).subset hx

theorem mem_splitlinesPy (l : Str) : ∀ s ∈ splitlinesPy l, s ∈ splitChar nlChar l := by
  intro s hs
  unfold splitlinesPy at hs
  simp only at hs
  split at hs
  · exact (List.dropLast_sublist _).subset hs
  · exact hs

theorem splitlinesPy_no_nl (l : Str) : ∀ s ∈ splitlinesPy l, nlChar ∉ s :=
  fun s hs => mem_splitChar_no_sep nlChar l s (mem_splitlinesPy l s hs)

theorem normalise_no_nl (v : Str) : nlChar ∉ normaliseRpslValue v := by
  unfold normaliseRpslValue
  split
  · intro hmem
    rcases mem_pyJoin [','] _ nlChar hmem with h | ⟨p, hp, hxp⟩
    · simp [nlChar] at h
    · obtain ⟨hp1, _⟩ := List.mem_filter.mp hp
      obtain ⟨line, hline, rfl⟩ := List.mem_map.mp hp1
      have h1 : nlChar ∈ splitHashHead line :=
        mem_stripBoth _ _ nlChar (by simpa [stripCommaNl] using hxp)
      have h2 : nlChar ∈ line :=
        mem_takeWhile_subset _ line nlChar (by simpa [splitHashHead] using h1)
      exact splitlinesPy_no_nl v line hline h2
  · rename_i hnin
    split
    · intro hmem
      exact hnin (mem_takeWhile_subset _ v nlChar
        (mem_stripBoth _ _ nlChar (by simpa [pyStrip, splitHashHead] using hmem)))
    · intro hmem
      exact hnin (mem_stripBoth _ _ nlChar (by simpa [pyStrip] using hmem))

/-! ## Claim C4: the fold-marker invariant -/

theorem foldInvariant_flushData (s : ExtState)
    (hd : ∀ e ∈ s.objectData, foldInvariant e)
    (hc : s.currentContChars.length + 1 = (splitChar nlChar s.currentValue).length) :
    ∀ e ∈ flushData s, foldInvariant e := by
  intro e he
  unfold flushData at he
  cases hattr : s.currentAttr with
  | none =>
      simp only [hattr] at he
      exact hd e he
  | some a =>
      simp only [hattr] at he
      by_cases ha : a = []
      · rw [if_pos ha] at he
        exact hd e he
      · rw [if_neg ha] at he
        rcases List.mem_append.mp he with he | he
        · exact hd e he
        · rw [List.mem_singleton] at he
          subst he
          exact hc

theorem runLines_foldInv (attrsAllowed : List Str) :
    ∀ (lines : List Str) (s : ExtState) (data : List AttributeLine) (errs : List RPSLErr),
    (∀ e ∈ s.objectData, foldInvariant e) →
    s.currentContChars.length + 1 = (splitChar nlChar s.currentValue).length →
    (∀ l ∈ lines, nlChar ∉ l) →
    runLines attrsAllowed s lines = some (data, errs) →
    ∀ e ∈ data, foldInvariant e := by
  intro lines
  induction lines with
  | nil =>
      intro s data errs hd hc _ hrun
      simp only [runLines, Option.some.injEq, Prod.mk.injEq] at hrun
      obtain ⟨rfl, _⟩ := hrun
      exact foldInvariant_flushData s hd hc
  | cons line rest ih =>
      intro s data errs hd hc hnl hrun
      unfold runLines at hrun
      cases line with
      | nil =>
          simp only [stepLine] at hrun
          simp only [Option.some.injEq, Prod.mk.injEq] at hrun
          obtain ⟨rfl, _⟩ := hrun
          exact hd
      | cons c rest' =>
          have hnl' : nlChar ∉ c :: rest' := hnl _ (List.mem_cons_self _ _)
          simp only [stepLine] at hrun
          by_cases hcont : c ∈ contStartChars
          · simp only [if_pos hcont] at hrun
            refine ih ⟨s.lineNo + 1, s.currentAttr,
                s.currentValue ++ nlChar :: pyStrip rest',
                s.currentContChars ++ [c], s.objectData⟩ data errs hd ?_
              (fun l hl => hnl l (List.mem_cons_of_mem _ hl)) hrun
            have hnt : nlChar ∉ pyStrip rest' := by
              intro hm
              exact hnl' (List.mem_cons_of_mem c (mem_stripBoth _ _ nlChar hm))
            show (s.currentContChars ++ [c]).length + 1 =
              (splitChar nlChar (s.currentValue ++ nlChar :: pyStrip rest')).length
            rw [splitChar_append_sep nlChar (pyStrip rest') hnt s.currentValue]
            simp only [List.length_append, List.length_cons, List.length_nil]
            omega
          · simp only [if_neg hcont] at hrun
            cases hsplit : splitColonAux (c :: rest') with
            | none =>
                rw [hsplit] at hrun
                exact absurd hrun (by simp)
            | some p =>
                obtain ⟨rawAttr, rawValue⟩ := p
                simp only [hsplit] at hrun
                have hnlv : nlChar ∉ pyStrip rawValue := by
                  intro hm
                  have hsub := mem_stripBoth _ _ nlChar hm
                  have heq := splitColonAux_eq _ _ _ hsplit
                  rw [heq] at hnl'
                  exact hnl' (List.mem_append_right rawAttr (List.mem_cons_of_mem ':' hsub))
                by_cases hbad : (pyLower rawAttr ∉ attrsAllowed ∧
                    attrNameOk (pyLower rawAttr) = false)
                · simp only [if_pos hbad, Option.some.injEq, Prod.mk.injEq] at hrun
                  obtain ⟨rfl, _⟩ := hrun
                  exact foldInvariant_flushData s hd hc
                · simp only [if_neg hbad] at hrun
                  refine ih ⟨s.lineNo + 1, some (pyLower rawAttr), pyStrip rawValue,
                      [], flushData s⟩ data errs (foldInvariant_flushData s hd hc) ?_
                    (fun l hl => hnl l (List.mem_cons_of_mem _ hl)) hrun
                  rw [splitChar_no_sep nlChar _ hnlv]
                  rfl

theorem cleanStep_foldInv (fields : Str → Option RPSLTextField) (strict : Bool)
    (st : List AttributeLine × CleanedData) (a : AttributeLine)
    (hst : ∀ e ∈ st.1, foldInvariant e) (ha : foldInvariant a)
    (hcaps : ∀ n f, fields n = some f → ∀ v c, f.clean v = some c → nlChar ∉ c) :
    ∀ e ∈ (cleanStep fields strict st a).1, foldInvariant e := by
  intro e he
  unfold cleanStep at he
  cases hf : fields a.attr with
  | none =>
      simp only [hf] at he
      rcases List.mem_append.mp he with h | h
      · exact hst e h
      · rw [List.mem_singleton] at h
        subst h
        exact ha
  | some field =>
      simp only [hf] at he
      by_cases hb : (strict || field.primary_key || field.lookup_key) = true
      · rw [if_pos hb] at he
        cases hcl : field.clean (normaliseRpslValue a.value) with
        | none =>
            simp only [hcl] at he
            rcases List.mem_append.mp he with h | h
            · exact hst e h
            · rw [List.mem_singleton] at h
              subst h
              exact ha
        | some cleaned =>
            simp only [hcl] at he
            by_cases hnil : cleaned = []
            · rw [if_pos hnil] at he
              rcases List.mem_append.mp he with h | h
              · exact hst e h
              · rw [List.mem_singleton] at h
                subst h
                exact ha
            · rw [if_neg hnil] at he
              rcases List.mem_append.mp he with h | h
              · exact hst e h
              · rw [List.mem_singleton] at h
                subst h
                by_cases hne : cleaned ≠ normaliseRpslValue a.value
                · rw [if_pos hne]
                  unfold foldInvariant
                  simp only
                  rw [length_splitChar, count_pyReplace a.value (normaliseRpslValue a.value)
                    cleaned (normalise_no_nl a.value)
                    (hcaps a.attr field hf (normaliseRpslValue a.value) cleaned hcl),
                    ← length_splitChar]
                  exact ha
                · rw [if_neg hne]
                  exact ha
      · rw [if_neg hb] at he
        rcases List.mem_append.mp he with h | h
        · exact hst e h
        · rw [List.mem_singleton] at h
          subst h
          exact ha

theorem cleanAttributeData_foldInv (fields : Str → Option RPSLTextField) (strict : Bool)
    (hcaps : ∀ n f, fields n = some f → ∀ v c, f.clean v = some c → nlChar ∉ c) :
    ∀ (data : List AttributeLine) (st : List AttributeLine × CleanedData),
    (∀ e ∈ st.1, foldInvariant e) → (∀ e ∈ data, foldInvariant e) →
    ∀ e ∈ (data.foldl (cleanStep fields strict) st).1, foldInvariant e := by
  intro data
  induction data with
  | nil =>
      intro st hst _ e he
      exact hst e he
  | cons a tl ih =>
      intro st hst hdata e he
      rw [List.foldl_cons] at he
      exact ih (cleanStep fields strict st a)
        (cleanStep_foldInv fields strict st a hst (hdata a (List.mem_cons_self a tl)) hcaps)
        (fun x hx => hdata x (List.mem_cons_of_mem a hx)) e he

theorem updateAttributeValue_foldInv (data : List AttributeLine) (cd : CleanedData)
    (attrName : Str) (newValues : List Str)
    (hdata : ∀ e ∈ data, foldInvariant e)
    (hnew : ∀ v ∈ newValues, nlChar ∉ v) :
    ∀ e ∈ (updateAttributeValue data cd attrName newValues).1, foldInvariant e := by
  intro e he
  unfold updateAttributeValue at he
  simp only at he
  rw [insertNewValues_eq] at he
  rcases List.mem_append.mp he with h | h
  · rcases List.mem_append.mp h with h | h
    · exact hdata e (List.mem_of_mem_filter (List.take_subset 1 _ h))
    · obtain ⟨v, hv, rfl⟩ := List.mem_map.mp h
      unfold foldInvariant
      simp only
      rw [splitChar_no_sep nlChar v (hnew v hv)]
      rfl
  · exact hdata e (List.mem_of_mem_filter (List.drop_subset 1 _ h))

/-- C4 counterexample: the claim says the fold-marker invariant is
preserved by the Mutator's replace for any new value, including one with
embedded line breaks; inserting the value "x NEWLINE y" yields a line
with zero fold markers but two physical lines. -/
theorem c4_counterexample :
    (updateAttributeValue [] [] ("a".data) [("x\ny".data)]).1 =
      [⟨"a".data, "x\ny".data, []⟩] ∧
    ¬ foldInvariant ⟨"a".data, "x\ny".data, []⟩ := by
  constructor
  · decide
  · unfold foldInvariant
    decide

/-- C4 amended: every AttributeLine held in the object satisfies
len(fold markers) = (number of physical lines of raw_value) - 1, and the
invariant is preserved by extraction (including halted extractions), by
the cosmetic rewrite during cleaning provided the clean capability
returns values without embedded line breaks, and by the Mutator's replace
provided the new values contain no embedded line breaks. -/
theorem c4_fold_invariant_amended :
    (∀ (attrsAllowed : List Str) (text : Str) (data : List AttributeLine)
        (errs : List RPSLErr),
      extractAttributesValues attrsAllowed text = some (data, errs) →
      ∀ e ∈ data, foldInvariant e) ∧
    (∀ (fields : Str → Option RPSLTextField) (strict : Bool)
        (data : List AttributeLine),
      (∀ n f, fields n = some f → ∀ v c, f.clean v = some c → nlChar ∉ c) →
      (∀ e ∈ data, foldInvariant e) →
      ∀ e ∈ (cleanAttributeData fields strict data).1, foldInvariant e) ∧
    (∀ (data : List AttributeLine) (cd : CleanedData) (attrName : Str)
        (newValues : List Str),
      (∀ e ∈ data, foldInvariant e) →
      (∀ v ∈ newValues, nlChar ∉ v) →
      ∀ e ∈ (updateAttributeValue data cd attrName newValues).1, foldInvariant e) := by
  refine ⟨?_, ?_, ?_⟩
  · intro attrsAllowed text data errs hex
    unfold extractAttributesValues at hex
    exact runLines_foldInv attrsAllowed (splitlinesPy (pyStrip text)) initExtState data errs
      (fun e he => absurd he (List.not_mem_nil e)) (by rfl)
      (splitlinesPy_no_nl (pyStrip text)) hex
  · intro fields strict data hcaps hdata
    exact cleanAttributeData_foldInv fields strict hcaps data ([], [])
      (fun e he => absurd he (List.not_mem_nil e)) hdata
  · exact updateAttributeValue_foldInv

/-- Witness for C4: one extracted folded line, one cleaned line, one
mutated object, each satisfying the invariant. -/
theorem c4_witness :
    foldInvariant (⟨"a".data, ['x', '\n', 'y'], ['+']⟩ : AttributeLine) ∧
    foldInvariant (⟨"a".data, "x".data, []⟩ : AttributeLine) ∧
    foldInvariant (⟨"a".data, "z".data, []⟩ : AttributeLine) := by
  refine ⟨?_, ?_, ?_⟩
  · exact c4_fold_invariant_amended.1 [] ("a: x\n+ y".data)
      [⟨"a".data, ['x', '\n', 'y'], ['+']⟩] [] (by decide)
      ⟨"a".data, ['x', '\n', 'y'], ['+']⟩ (by decide)
  · exact c4_fold_invariant_amended.2.1
      (fun _ => some ⟨true, false, false, false, fun _ => some ("x".data)⟩) true
      [⟨"a".data, "x".data, []⟩]
      (fun n f hf v c hc => by
        injection hf with hf
        subst hf
        injection hc with hc
        subst hc
        decide)
      (fun e he => by
        rw [List.mem_singleton] at he
        subst he
        unfold foldInvariant
        decide)
      ⟨"a".data, "x".data, []⟩ (by decide)
  · exact c4_fold_invariant_amended.2.2 [⟨"b".data, "1".data, []⟩] [] ("a".data)
      ["z".data]
      (fun e he => by
        rw [List.mem_singleton] at he
        subst he
        unfold foldInvariant
        decide)
      (fun v hv => by
        rw [List.mem_singleton] at hv
        subst hv
        decide)
      ⟨"a".data, "z".data, []⟩ (by decide)

/-! ## Claim C1: round-trip lemmas -/

theorem head?_dropTrailing (p : Char → Bool) (m : Str) (c : Char)
    (h : (dropTrailing p m).head? = some c) : m.head? = some c := by
  have hm : m = dropTrailing p m ++ (m.reverse.takeWhile p).reverse := by
    unfold dropTrailing
    conv_lhs => rw [← List.reverse_reverse m,
      ← List.takeWhile_append_dropWhile (p := p) (l := m.reverse)]
    rw [List.reverse_append]
  cases hdt : dropTrailing p m with
  | nil => rw [hdt] at h; simp at h
  | cons x t =>
      rw [hdt] at h
      simp at h
      subst h
      rw [hm, hdt]
      rfl

theorem pyStrip_NoEdgeWs (l : Str) : NoEdgeWs (pyStrip l) := by
  constructor
  · intro c h
    have hh := head?_dropTrailing isPySpace (l.dropWhile isPySpace) c h
    exact head?_dropWhile_not isPySpace l c hh
  · intro c h
    exact dropTrailing_getLast?_not isPySpace _ c h

theorem dropWhile_eq_self_of_NoEdge (p : Char → Bool) (l : Str)
    (h : ∀ c, l.head? = some c → p c = false) : l.dropWhile p = l := by
  cases l with
  | nil => rfl
  | cons c cs =>
      rw [List.dropWhile_cons_of_neg]
      simp [h c rfl]

theorem pyStrip_eq_self (l : Str) (h : NoEdgeWs l) : pyStrip l = l := by
  unfold pyStrip stripBoth
  rw [dropWhile_eq_self_of_NoEdge isPySpace l h.1]
  unfold dropTrailing
  rw [dropWhile_eq_self_of_NoEdge isPySpace l.reverse
    (fun c hc => h.2 c (by rwa [List.getLast?_eq_head?_reverse])),
    List.reverse_reverse]

theorem dropWhile_replicate_space (k : Nat) (l : Str) :
    (List.replicate k ' ' ++ l).dropWhile isPySpace = l.dropWhile isPySpace := by
  induction k with
  | zero => rfl
  | succ n ih =>
      rw [List.replicate_succ, List.cons_append, List.dropWhile_cons_of_pos (by decide)]
      exact ih

theorem pyStrip_padding (k : Nat) (seg : Str) (hseg : NoEdgeWs seg) :
    pyStrip (List.replicate k ' ' ++ seg) = seg := by
  unfold pyStrip stripBoth
  rw [dropWhile_replicate_space, dropWhile_eq_self_of_NoEdge isPySpace seg hseg.1]
  unfold dropTrailing
  rw [dropWhile_eq_self_of_NoEdge isPySpace seg.reverse
    (fun c hc => hseg.2 c (by rwa [List.getLast?_eq_head?_reverse])),
    List.reverse_reverse]

theorem goodAttrLine_flushData (s : ExtState)
    (hd : ∀ e ∈ s.objectData, GoodAttrLine e)
    (hattr : ∀ x, s.currentAttr = some x → attrNameOk x = true)
    (hseg : ∀ seg ∈ splitChar nlChar s.currentValue, NoEdgeWs seg)
    (hc : s.currentContChars.length + 1 = (splitChar nlChar s.currentValue).length)
    (hcc : ∀ c ∈ s.currentContChars, c ∈ contStartChars) :
    ∀ e ∈ flushData s, GoodAttrLine e := by
  intro e he
  unfold flushData at he
  cases ha : s.currentAttr with
  | none =>
      simp only [ha] at he
      exact hd e he
  | some a =>
      simp only [ha] at he
      by_cases han : a = []
      · rw [if_pos han] at he
        exact hd e he
      · rw [if_neg han] at he
        rcases List.mem_append.mp he with h | h
        · exact hd e h
        · rw [List.mem_singleton] at h
          subst h
          exact ⟨hattr a ha, hseg, hc, hcc⟩

theorem runLines_good (attrsAllowed : List Str)
    (hallowed : ∀ x ∈ attrsAllowed, attrNameOk x = true) :
    ∀ (lines : List Str) (s : ExtState) (data : List AttributeLine) (errs : List RPSLErr),
    (∀ e ∈ s.objectData, GoodAttrLine e) →
    (∀ x, s.currentAttr = some x → attrNameOk x = true) →
    (∀ seg ∈ splitChar nlChar s.currentValue, NoEdgeWs seg) →
    s.currentContChars.length + 1 = (splitChar nlChar s.currentValue).length →
    (∀ c ∈ s.currentContChars, c ∈ contStartChars) →
    (∀ l ∈ lines, nlChar ∉ l) →
    runLines attrsAllowed s lines = some (data, errs) →
    ∀ e ∈ data, GoodAttrLine e := by
  intro lines
  induction lines with
  | nil =>
      intro s data errs hd hattr hseg hc hcc _ hrun
      simp only [runLines, Option.some.injEq, Prod.mk.injEq] at hrun
      obtain ⟨rfl, _⟩ := hrun
      exact goodAttrLine_flushData s hd hattr hseg hc hcc
  | cons line rest ih =>
      intro s data errs hd hattr hseg hc hcc hnl hrun
      unfold runLines at hrun
      cases line with
      | nil =>
          simp only [stepLine, Option.some.injEq, Prod.mk.injEq] at hrun
          obtain ⟨rfl, _⟩ := hrun
          exact hd
      | cons c rest' =>
          have hnl' : nlChar ∉ c :: rest' := hnl _ (List.mem_cons_self _ _)
          simp only [stepLine] at hrun
          by_cases hcont : c ∈ contStartChars
          · simp only [if_pos hcont] at hrun
            have hnt : nlChar ∉ pyStrip rest' := by
              intro hm
              exact hnl' (List.mem_cons_of_mem c (mem_stripBoth _ _ nlChar hm))
            refine ih ⟨s.lineNo + 1, s.currentAttr,
                s.currentValue ++ nlChar :: pyStrip rest',
                s.currentContChars ++ [c], s.objectData⟩ data errs hd hattr ?_ ?_ ?_
              (fun l hl => hnl l (List.mem_cons_of_mem _ hl)) hrun
            · show ∀ seg ∈ splitChar nlChar (s.currentValue ++ nlChar :: pyStrip rest'),
                NoEdgeWs seg
              rw [splitChar_append_sep nlChar (pyStrip rest') hnt s.currentValue]
              intro seg hsm
              rcases List.mem_append.mp hsm with h | h
              · exact hseg seg h
              · rw [List.mem_singleton] at h
                subst h
                exact pyStrip_NoEdgeWs rest'
            · show (s.currentContChars ++ [c]).length + 1 =
                (splitChar nlChar (s.currentValue ++ nlChar :: pyStrip rest')).length
              rw [splitChar_append_sep nlChar (pyStrip rest') hnt s.currentValue]
              simp only [List.length_append, List.length_cons, List.length_nil]
              omega
            · show ∀ d ∈ s.currentContChars ++ [c], d ∈ contStartChars
              intro d hdm
              rcases List.mem_append.mp hdm with h | h
              · exact hcc d h
              · rw [List.mem_singleton] at h
                subst h
                exact hcont
          · simp only [if_neg hcont] at hrun
            cases hsplit : splitColonAux (c :: rest') with
            | none =>
                rw [hsplit] at hrun
                exact absurd hrun (by simp)
            | some p =>
                obtain ⟨rawAttr, rawValue⟩ := p
                simp only [hsplit] at hrun
                have hnlv : nlChar ∉ pyStrip rawValue := by
                  intro hm
                  have hsub := mem_stripBoth _ _ nlChar hm
                  have heq := splitColonAux_eq _ _ _ hsplit
                  rw [heq] at hnl'
                  exact hnl' (List.mem_append_right rawAttr (List.mem_cons_of_mem ':' hsub))
                by_cases hbad : (pyLower rawAttr ∉ attrsAllowed ∧
                    attrNameOk (pyLower rawAttr) = false)
                · simp only [if_pos hbad, Option.some.injEq, Prod.mk.injEq] at hrun
                  obtain ⟨rfl, _⟩ := hrun
                  exact goodAttrLine_flushData s hd hattr hseg hc hcc
                · simp only [if_neg hbad] at hrun
                  have hokname : attrNameOk (pyLower rawAttr) = true := by
                    by_cases hok : attrNameOk (pyLower rawAttr) = true
                    · exact hok
                    · rw [Bool.not_eq_true] at hok
                      by_cases hmem : pyLower rawAttr ∈ attrsAllowed
                      · exact hallowed _ hmem
                      · exact absurd ⟨hmem, hok⟩ hbad
                  refine ih ⟨s.lineNo + 1, some (pyLower rawAttr), pyStrip rawValue,
                      [], flushData s⟩ data errs
                    (goodAttrLine_flushData s hd hattr hseg hc hcc) ?_ ?_ ?_ ?_
                    (fun l hl => hnl l (List.mem_cons_of_mem _ hl)) hrun
                  · intro x hx
                    injection hx with hx
                    subst hx
                    exact hokname
                  · show ∀ seg ∈ splitChar nlChar (pyStrip rawValue), NoEdgeWs seg
                    rw [splitChar_no_sep nlChar _ hnlv]
                    intro seg hsm
                    rw [List.mem_singleton] at hsm
                    subst hsm
                    exact pyStrip_NoEdgeWs rawValue
                  · show ([] : List Char).length + 1 =
                      (splitChar nlChar (pyStrip rawValue)).length
                    rw [splitChar_no_sep nlChar _ hnlv]
                    rfl
                  · intro d hdm
                    exact absurd hdm (List.not_mem_nil d)

theorem extract_good (attrsAllowed : List Str) (text : Str)
    (data : List AttributeLine) (errs : List RPSLErr)
    (hallowed : ∀ x ∈ attrsAllowed, attrNameOk x = true)
    (hex : extractAttributesValues attrsAllowed text = some (data, errs)) :
    ∀ e ∈ data, GoodAttrLine e := by
  unfold extractAttributesValues at hex
  refine runLines_good attrsAllowed hallowed (splitlinesPy (pyStrip text)) initExtState
    data errs (fun e he => absurd he (List.not_mem_nil e)) ?_ ?_ (by rfl) ?_
    (splitlinesPy_no_nl (pyStrip text)) hex
  · intro x hx
    exact absurd hx (by simp [initExtState])
  · intro seg hsm
    simp only [initExtState] at hsm
    rw [show splitChar nlChar ([] : Str) = [[]] from rfl] at hsm
    rw [List.mem_singleton] at hsm
    subst hsm
    exact ⟨fun c hc => by simp at hc, fun c hc => by simp at hc⟩
  · intro c hcm
    exact absurd hcm (by simp [initExtState])


theorem splitChar_getLast_ne_nil (sep : Char) :
    ∀ v : Str, v ≠ [] → v.getLast? ≠ some sep →
    (splitChar sep v).getLast? ≠ some [] := by
  intro v
  induction v with
  | nil => intro h; exact absurd rfl h
  | cons c cs ih =>
      intro _ hlast
      cases cs with
      | nil =>
          have hc : ¬ (c = sep) := fun hcc => hlast (by simp [hcc])
          rw [splitChar_cons_of_eq sep c [] [] [] rfl, if_neg hc]
          simp
      | cons d ds =>
          have hlast' : (d :: ds).getLast? ≠ some sep := by
            rwa [List.getLast?_cons_cons] at hlast
          have ihh := ih (by simp) hlast'
          cases hs : splitChar sep (d :: ds) with
          | nil => exact absurd hs (splitChar_ne_nil sep _)
          | cons r rs =>
              rw [splitChar_cons_of_eq sep c (d :: ds) r rs hs]
              rw [hs] at ihh
              by_cases hc : c = sep
              · rw [if_pos hc]
                rwa [List.getLast?_cons_cons]
              · rw [if_neg hc]
                cases rs with
                | nil => simp
                | cons r2 rs2 =>
                    rw [List.getLast?_cons_cons]
                    rwa [List.getLast?_cons_cons] at ihh

theorem splitlinesPy_eq_splitChar (v : Str) (hv : v ≠ [])
    (hnt : v.getLast? ≠ some nlChar) :
    splitlinesPy v = splitChar nlChar v := by
  unfold splitlinesPy
  simp only
  rw [if_neg (splitChar_getLast_ne_nil nlChar v hv hnt)]

theorem renderContLines_eq (lines : List Str) :
    ∀ chars : List Char, lines.length ≤ chars.length →
    renderContLines chars lines =
      some (joinLinesNL ((lines.zip chars).map (fun p => p.2 :: contPadding ++ p.1))) := by
  induction lines with
  | nil => intro chars _; simp [renderContLines, joinLinesNL]
  | cons line rest ih =>
      intro chars hlen
      cases chars with
      | nil => simp at hlen
      | cons c cs =>
          simp only [renderContLines]
          rw [ih cs (by simpa using hlen)]
          simp [joinLinesNL]

theorem joinLinesNL_cons (x : Str) (rest : List Str) :
    joinLinesNL (x :: rest) = x ++ [nlChar] ++ joinLinesNL rest := by
  simp [joinLinesNL]

theorem joinLinesNL_append (A B : List Str) :
    joinLinesNL (A ++ B) = joinLinesNL A ++ joinLinesNL B := by
  simp [joinLinesNL]

theorem renderAttrLine_eq (a : AttributeLine) (hg : GoodAttrLine a)
    (hnt : a.value.getLast? ≠ some nlChar) :
    renderAttrLine a = some (joinLinesNL (renderedLines a)) := by
  by_cases hval : a.value = []
  · unfold renderAttrLine renderedLines
    rw [hval]
    simp [joinLinesNL, splitlinesPy, splitChar]
  · have hsl : splitlinesPy a.value = splitChar nlChar a.value :=
      splitlinesPy_eq_splitChar _ hval hnt
    cases hs : splitChar nlChar a.value with
    | nil => exact absurd hs (splitChar_ne_nil nlChar _)
    | cons first rest =>
        have hlen : rest.length ≤ a.continuationChars.length := by
          have := hg.2.2.1
          unfold foldInvariant at this
          rw [hs] at this
          simp at this
          omega
        unfold renderAttrLine renderedLines
        rw [hsl, hs]
        simp only
        rw [renderContLines_eq rest a.continuationChars hlen]
        simp [joinLinesNL]


theorem renderRpslText_eq (data : List AttributeLine)
    (hg : ∀ e ∈ data, GoodAttrLine e)
    (hnt : ∀ e ∈ data, e.value.getLast? ≠ some nlChar) :
    renderRpslText data = some (joinLinesNL (renderedAllLines data)) := by
  induction data with
  | nil => simp [renderRpslText, renderedAllLines, joinLinesNL]
  | cons a rest ih =>
      unfold renderRpslText
      rw [renderAttrLine_eq a (hg a (List.mem_cons_self a rest))
          (hnt a (List.mem_cons_self a rest)),
        ih (fun e he => hg e (List.mem_cons_of_mem a he))
          (fun e he => hnt e (List.mem_cons_of_mem a he))]
      simp only [renderedAllLines, List.map_cons, List.flatten_cons]
      rw [joinLinesNL_append]

theorem pyJoin_cons_cons (sep : Str) (x y : Str) (rest : List Str) :
    pyJoin sep (x :: y :: rest) = x ++ sep ++ pyJoin sep (y :: rest) := rfl

theorem joinLinesNL_eq_pyJoin (L : List Str) (hL : L ≠ []) :
    joinLinesNL L = pyJoin [nlChar] L ++ [nlChar] := by
  induction L with
  | nil => exact absurd rfl hL
  | cons x rest ih =>
      cases rest with
      | nil => simp [joinLinesNL, pyJoin]
      | cons y rest2 =>
          rw [joinLinesNL_cons, ih (by simp), pyJoin_cons_cons]
          simp

theorem pyJoin_head? (sep : Str) (x : Str) (rest : List Str) (hx : x ≠ []) :
    (pyJoin sep (x :: rest)).head? = x.head? := by
  cases rest with
  | nil => rfl
  | cons y rest2 =>
      rw [pyJoin_cons_cons]
      cases x with
      | nil => exact absurd rfl hx
      | cons c cs => rfl

theorem pyJoin_getLast? (sep : Str) :
    ∀ (L : List Str) (z : Str), L.getLast? = some z → z ≠ [] →
    (pyJoin sep L).getLast? = z.getLast? ∧ pyJoin sep L ≠ [] := by
  intro L
  induction L with
  | nil => intro z hz; simp at hz
  | cons x rest ih =>
      intro z hz hzne
      cases rest with
      | nil =>
          simp at hz
          subst hz
          exact ⟨rfl, by simpa [pyJoin] using hzne⟩
      | cons y rest2 =>
          rw [List.getLast?_cons_cons] at hz
          obtain ⟨ih1, ih2⟩ := ih z hz hzne
          rw [pyJoin_cons_cons]
          constructor
          · rw [List.append_assoc, List.getLast?_append_of_ne_nil x (by
              intro hcc
              rcases List.append_eq_nil.mp hcc with ⟨_, h2⟩
              exact ih2 h2),
              List.getLast?_append_of_ne_nil sep ih2]
            exact ih1
          · intro hcc
            rw [List.append_assoc] at hcc
            rcases List.append_eq_nil.mp hcc with ⟨_, h2⟩
            rcases List.append_eq_nil.mp h2 with ⟨_, h3⟩
            exact ih2 h3

theorem splitChar_append_head (sep : Char) :
    ∀ (x : Str), sep ∉ x → ∀ R : Str,
    splitChar sep (x ++ sep :: R) = x :: splitChar sep R := by
  intro x
  induction x with
  | nil =>
      intro _ R
      cases hs : splitChar sep R with
      | nil => exact absurd hs (splitChar_ne_nil sep R)
      | cons r rs =>
          rw [List.nil_append, splitChar_cons_of_eq sep sep R r rs hs, if_pos rfl]
  | cons c x' ih =>
      intro hx R
      have hc : ¬ (c = sep) := fun hcc => hx (hcc ▸ List.mem_cons_self c x')
      have hx' : sep ∉ x' := fun hm => hx (List.mem_cons_of_mem c hm)
      rw [List.cons_append]
      cases hs2 : splitChar sep (x' ++ sep :: R) with
      | nil => exact absurd hs2 (splitChar_ne_nil sep _)
      | cons r rs =>
          rw [splitChar_cons_of_eq sep c _ r rs hs2, if_neg hc]
          rw [ih hx' R] at hs2
          injection hs2 with h1 h2
          rw [h1, h2]

theorem splitChar_pyJoin :
    ∀ (L : List Str), L ≠ [] → (∀ l ∈ L, nlChar ∉ l) →
    splitChar nlChar (pyJoin [nlChar] L) = L := by
  intro L
  induction L with
  | nil => intro h; exact absurd rfl h
  | cons x rest ih =>
      intro _ hnl
      cases rest with
      | nil =>
          exact splitChar_no_sep nlChar x (hnl x (List.mem_cons_self x []))
      | cons y rest2 =>
          rw [pyJoin_cons_cons]
          have : x ++ [nlChar] ++ pyJoin [nlChar] (y :: rest2) =
              x ++ nlChar :: pyJoin [nlChar] (y :: rest2) := by simp
          rw [this, splitChar_append_head nlChar x (hnl x (List.mem_cons_self x _)),
            ih (by simp) (fun l hl => hnl l (List.mem_cons_of_mem x hl))]

theorem pyStrip_append_nl (X : Str) (hne : X ≠ [])
    (hhead : ∀ c, X.head? = some c → isPySpace c = false)
    (hlast : ∀ c, X.getLast? = some c → isPySpace c = false) :
    pyStrip (X ++ [nlChar]) = X := by
  unfold pyStrip stripBoth
  have h1 : (X ++ [nlChar]).dropWhile isPySpace = X ++ [nlChar] := by
    cases X with
    | nil => exact absurd rfl hne
    | cons c cs =>
        rw [List.cons_append, List.dropWhile_cons_of_neg]
        simp [hhead c rfl]
  rw [h1]
  unfold dropTrailing
  rw [List.reverse_append]
  simp only [List.reverse_cons, List.reverse_nil, List.nil_append,
    List.singleton_append]
  rw [List.dropWhile_cons_of_pos (by decide)]
  have h2 : X.reverse.dropWhile isPySpace = X.reverse := by
    cases hx : X.reverse with
    | nil => rfl
    | cons c cs =>
        rw [List.dropWhile_cons_of_neg]
        have hgl : X.getLast? = some c := by
          rw [List.getLast?_eq_head?_reverse, hx]
          rfl
        simp [hlast c hgl]
  rw [h2, List.reverse_reverse]


theorem stepLine_attr (attrsAllowed : List Str) (s : ExtState) (name u : Str)
    (hname : attrNameOk name = true) :
    stepLine attrsAllowed s (name ++ ':' :: u) =
      .cont ⟨s.lineNo + 1, some name, pyStrip u, [], flushData s⟩ := by
  have hall : ∀ x ∈ name, isNameChar x = true := by
    have h2 := (Bool.and_eq_true _ _).mp hname
    exact List.all_eq_true.mp h2.2
  cases name with
  | nil => exact absurd hname (by decide)
  | cons c t' =>
      have hcn : isNameChar c = true := hall c (List.mem_cons_self c t')
      have hcolon : ':' ∉ c :: t' := fun hm => nameChar_ne_colon _ (hall _ hm) rfl
      have hsplit := splitColonAux_append (c :: t') u hcolon
      rw [List.cons_append] at hsplit
      rw [List.cons_append]
      simp only [stepLine]
      rw [if_neg (nameChar_not_cont c hcn), hsplit]
      simp only [pyLower_nameOk _ hname]
      rw [if_neg]
      rintro ⟨_, hb⟩
      rw [hname] at hb
      exact Bool.noConfusion hb

theorem stepLine_cont (attrsAllowed : List Str) (s : ExtState) (c : Char)
    (hc : c ∈ contStartChars) (seg : Str) (hseg : NoEdgeWs seg) :
    stepLine attrsAllowed s (c :: contPadding ++ seg) =
      .cont ⟨s.lineNo + 1, s.currentAttr, s.currentValue ++ nlChar :: seg,
             s.currentContChars ++ [c], s.objectData⟩ := by
  rw [List.cons_append]
  simp only [stepLine]
  rw [if_pos hc]
  unfold contPadding
  rw [pyStrip_padding _ seg hseg]

theorem runCont_conts (attrsAllowed : List Str) :
    ∀ (pairs : List (Str × Char)) (s : ExtState),
    (∀ p ∈ pairs, NoEdgeWs p.1 ∧ p.2 ∈ contStartChars) →
    runCont attrsAllowed s (pairs.map (fun p => p.2 :: contPadding ++ p.1)) =
      some ⟨s.lineNo + pairs.length, s.currentAttr,
            s.currentValue ++ (pairs.map (fun p => nlChar :: p.1)).flatten,
            s.currentContChars ++ pairs.map (fun p => p.2), s.objectData⟩ := by
  intro pairs
  induction pairs with
  | nil =>
      intro s _
      cases s
      simp [runCont]
  | cons p ps ih =>
      intro s hp
      simp only [List.map_cons, runCont,
        stepLine_cont attrsAllowed s p.2 (hp p (List.mem_cons_self p ps)).2 p.1
          (hp p (List.mem_cons_self p ps)).1]
      rw [ih _ (fun q hq => hp q (List.mem_cons_of_mem p hq))]
      simp [List.append_assoc]
      omega

theorem runCont_append_of (attrsAllowed : List Str) (L1 : List Str) :
    ∀ (s s1 : ExtState), runCont attrsAllowed s L1 = some s1 →
    ∀ L2, runCont attrsAllowed s (L1 ++ L2) = runCont attrsAllowed s1 L2 := by
  induction L1 with
  | nil =>
      intro s s1 h L2
      simp only [runCont, Option.some.injEq] at h
      subst h
      rfl
  | cons l ls ih =>
      intro s s1 h L2
      unfold runCont at h
      cases hstep : stepLine attrsAllowed s l with
      | cont s2 =>
          rw [hstep] at h
          simp only [List.cons_append, runCont, hstep]
          exact ih s2 s1 h L2
      | halt d e => rw [hstep] at h; simp at h
      | exc => rw [hstep] at h; simp at h

theorem runLines_of_runCont (attrsAllowed : List Str) (L : List Str) :
    ∀ (s s' : ExtState), runCont attrsAllowed s L = some s' →
    runLines attrsAllowed s L = some (flushData s', []) := by
  induction L with
  | nil =>
      intro s s' h
      simp only [runCont, Option.some.injEq] at h
      subst h
      rfl
  | cons l ls ih =>
      intro s s' h
      unfold runCont at h
      cases hstep : stepLine attrsAllowed s l with
      | cont s2 =>
          rw [hstep] at h
          simp only [runLines, hstep]
          exact ih s2 s' h
      | halt d e => rw [hstep] at h; simp at h
      | exc => rw [hstep] at h; simp at h


theorem splitChar_eq_single_nil (sep : Char) :
    ∀ v : Str, splitChar sep v = [[]] → v = [] := by
  intro v
  cases v with
  | nil => intro _; rfl
  | cons c cs =>
      intro h
      cases hs : splitChar sep cs with
      | nil => exact absurd hs (splitChar_ne_nil sep cs)
      | cons r rs =>
          rw [splitChar_cons_of_eq sep c cs r rs hs] at h
          by_cases hc : c = sep
          · rw [if_pos hc] at h
            simp at h
          · rw [if_neg hc] at h
            simp at h

theorem splitlinesPy_nil_iff (v : Str) : splitlinesPy v = [] ↔ v = [] := by
  constructor
  · intro h
    unfold splitlinesPy at h
    simp only at h
    split at h
    · rename_i hlast
      cases hs : splitChar nlChar v with
      | nil => exact absurd hs (splitChar_ne_nil nlChar v)
      | cons r rs =>
          rw [hs] at h hlast
          have h2 : r :: rs = [[]] := by
            cases rs with
            | nil =>
                simp at hlast
                rw [hlast]
            | cons r2 rs2 => simp at h
          exact splitChar_eq_single_nil nlChar v (hs.trans h2)
    · exact absurd h (splitChar_ne_nil nlChar v)
  · intro h
    subst h
    rfl

theorem runCont_entry (attrsAllowed : List Str) (a : AttributeLine)
    (hg : GoodAttrLine a) (hnt : a.value.getLast? ≠ some nlChar) (s : ExtState) :
    runCont attrsAllowed s (renderedLines a) =
      some ⟨s.lineNo + (renderedLines a).length, some a.attr, a.value,
            a.continuationChars, flushData s⟩ := by
  obtain ⟨hname, hsegs, hinv, hcc⟩ := hg
  by_cases hval : a.value = []
  · have hchars : a.continuationChars = [] := by
      unfold foldInvariant at hinv
      rw [hval] at hinv
      have h1 : (splitChar nlChar ([] : Str)).length = 1 := rfl
      rw [h1] at hinv
      have h0 : a.continuationChars.length = 0 := by omega
      exact List.eq_nil_of_length_eq_zero h0
    have hrl : renderedLines a = [a.attr ++ [':']] := by
      unfold renderedLines
      rw [hval]
      rfl
    rw [hrl]
    have hline : a.attr ++ [':'] = a.attr ++ ':' :: [] := rfl
    simp only [runCont, hline, stepLine_attr attrsAllowed s a.attr [] hname]
    rw [hval, hchars]
    rfl
  · have hsl : splitlinesPy a.value = splitChar nlChar a.value :=
      splitlinesPy_eq_splitChar _ hval hnt
    cases hs : splitChar nlChar a.value with
    | nil => exact absurd hs (splitChar_ne_nil nlChar _)
    | cons first rest =>
        have hlen : rest.length = a.continuationChars.length := by
          unfold foldInvariant at hinv
          rw [hs] at hinv
          simp at hinv
          omega
        unfold renderedLines
        rw [hsl, hs]
        simp only
        have hfirst : NoEdgeWs first := hsegs first (hs ▸ List.mem_cons_self first rest)
        have hline1 : ljustWidth (a.attr ++ [':']) ++ first =
            a.attr ++ ':' :: (List.replicate
              (rpslAttributeTextWidth - (a.attr ++ [':']).length) ' ' ++ first) := by
          unfold ljustWidth
          simp
        rw [hline1]
        simp only [runCont, stepLine_attr attrsAllowed s a.attr _ hname]
        rw [pyStrip_padding _ first hfirst]
        have hzip : ∀ p ∈ rest.zip a.continuationChars,
            NoEdgeWs p.1 ∧ p.2 ∈ contStartChars := by
          intro p hp
          obtain ⟨h1, h2⟩ := List.of_mem_zip hp
          exact ⟨hsegs p.1 (hs ▸ List.mem_cons_of_mem first h1), hcc p.2 h2⟩
        rw [runCont_conts attrsAllowed (rest.zip a.continuationChars) _ hzip]
        have hjoin : ∀ (x : Str) (xs : List Str),
            pyJoin [nlChar] (x :: xs) = x ++ (xs.map (fun y => nlChar :: y)).flatten := by
          intro x xs
          induction xs generalizing x with
          | nil => simp [pyJoin]
          | cons y ys ih => simp [pyJoin, ih y]
        have hv : first ++ ((rest.zip a.continuationChars).map
            (fun p => nlChar :: p.1)).flatten = a.value := by
          have hmapeq : (rest.zip a.continuationChars).map (fun p => nlChar :: p.1) =
              rest.map (fun x => nlChar :: x) := by
            rw [show (fun p : Str × Char => nlChar :: p.1) =
              (fun x => nlChar :: x) ∘ Prod.fst from rfl, ← List.map_map]
            rw [show ((rest.zip a.continuationChars).map Prod.fst) = rest from
              List.map_fst_zip rest a.continuationChars (by omega)]
          rw [hmapeq]
          have hpj := pyJoin_splitChar nlChar a.value
          rw [hs, hjoin first rest] at hpj
          exact hpj
        have hch : ([] : List Char) ++ (rest.zip a.continuationChars).map
            (fun p => p.2) = a.continuationChars := by
          rw [List.nil_append,
            show (fun p : Str × Char => p.2) = Prod.snd from rfl]
          exact List.map_snd_zip rest a.continuationChars (by omega)
        rw [hv, hch]
        have hln : s.lineNo + 1 + (rest.zip a.continuationChars).length =
            s.lineNo + ((a.attr ++ ':' :: (List.replicate
              (rpslAttributeTextWidth - (a.attr ++ [':']).length) ' ' ++ first)) ::
              (rest.zip a.continuationChars).map
                (fun p => p.2 :: contPadding ++ p.1)).length := by
          simp only [List.length_cons, List.length_map]
          omega
        rw [hln]


theorem runCont_allEntries (attrsAllowed : List Str) :
    ∀ (data : List AttributeLine) (s : ExtState),
    (∀ e ∈ data, GoodAttrLine e) →
    (∀ e ∈ data, e.value.getLast? ≠ some nlChar) →
    ∃ s' : ExtState, runCont attrsAllowed s (renderedAllLines data) = some s' ∧
      flushData s' = flushData s ++ data := by
  intro data
  induction data with
  | nil =>
      intro s _ _
      exact ⟨s, rfl, by simp⟩
  | cons a rest ih =>
      intro s hg hnt
      have hga := hg a (List.mem_cons_self a rest)
      have hstep := runCont_entry attrsAllowed a hga (hnt a (List.mem_cons_self a rest)) s
      have happ : renderedAllLines (a :: rest) =
          renderedLines a ++ renderedAllLines rest := by
        simp [renderedAllLines]
      obtain ⟨s', hrun, hflush⟩ := ih
        ⟨s.lineNo + (renderedLines a).length, some a.attr, a.value,
         a.continuationChars, flushData s⟩
        (fun e he => hg e (List.mem_cons_of_mem a he))
        (fun e he => hnt e (List.mem_cons_of_mem a he))
      refine ⟨s', ?_, ?_⟩
      · rw [happ, runCont_append_of attrsAllowed (renderedLines a) s _ hstep, hrun]
      · rw [hflush]
        have hfa : flushData ⟨s.lineNo + (renderedLines a).length, some a.attr,
            a.value, a.continuationChars, flushData s⟩ = flushData s ++ [a] := by
          unfold flushData
          simp only
          rw [if_neg (attrNameOk_ne_nil a.attr hga.1)]
        rw [hfa]
        simp

theorem attr_no_nl (a : AttributeLine) (hname : attrNameOk a.attr = true) :
    nlChar ∉ a.attr := by
  intro hm
  have hall := (Bool.and_eq_true _ _).mp hname
  have := List.all_eq_true.mp hall.2 nlChar hm
  exact absurd this (by decide)

theorem renderedLines_ne_nil (a : AttributeLine) : renderedLines a ≠ [] := by
  unfold renderedLines
  cases splitlinesPy a.value with
  | nil => simp
  | cons first rest => simp

theorem renderedLines_no_nl (a : AttributeLine) (hg : GoodAttrLine a) :
    ∀ l ∈ renderedLines a, nlChar ∉ l := by
  obtain ⟨hname, hsegs, _, hcc⟩ := hg
  have hattr := attr_no_nl a hname
  intro l hl
  unfold renderedLines at hl
  cases hval : splitlinesPy a.value with
  | nil =>
      rw [hval] at hl
      rw [List.mem_singleton] at hl
      subst hl
      intro hm
      rcases List.mem_append.mp hm with h | h
      · exact hattr h
      · exact absurd h (by decide)
  | cons first rest =>
      rw [hval] at hl
      rcases List.mem_cons.mp hl with rfl | hl
      · intro hm
        rcases List.mem_append.mp hm with h | h
        · unfold ljustWidth at h
          rcases List.mem_append.mp h with h | h
          · rcases List.mem_append.mp h with h | h
            · exact hattr h
            · exact absurd h (by decide)
          · have := List.eq_of_mem_replicate h
            simp [nlChar] at this
        · have hfm : first ∈ splitChar nlChar a.value := by
            have := mem_splitlinesPy a.value first
            rw [hval] at this
            exact this (List.mem_cons_self first rest)
          exact mem_splitChar_no_sep nlChar a.value first hfm h
      · obtain ⟨p, hp, rfl⟩ := List.mem_map.mp hl
        obtain ⟨h1, h2⟩ := List.of_mem_zip hp
        intro hm
        rcases List.mem_cons.mp hm with heq | hm
        · have := hcc p.2 h2
          rw [← heq] at this
          simp [contStartChars, nlChar] at this
        · rcases List.mem_append.mp hm with h | h
          · have := List.eq_of_mem_replicate h
            simp [nlChar] at this
          · have hsm : p.1 ∈ splitChar nlChar a.value := by
              have := mem_splitlinesPy a.value p.1
              rw [hval] at this
              exact this (List.mem_cons_of_mem first h1)
            exact mem_splitChar_no_sep nlChar a.value p.1 hsm h


theorem renderedLines_head_char (a : AttributeLine) (hg : GoodAttrLine a) :
    ∃ (c : Char) (t : Str), (renderedLines a).head? = some (c :: t) ∧
      isPySpace c = false := by
  obtain ⟨hname, _, _, _⟩ := hg
  have hall : ∀ x ∈ a.attr, isNameChar x = true := by
    have h2 := (Bool.and_eq_true _ _).mp hname
    exact List.all_eq_true.mp h2.2
  cases hattr : a.attr with
  | nil => exact absurd (hattr ▸ hname) (by decide)
  | cons c t' =>
      have hcn : isNameChar c = true := hall c (hattr ▸ List.mem_cons_self c t')
      have hsp := nameChar_not_space c hcn
      unfold renderedLines
      cases splitlinesPy a.value with
      | nil =>
          refine ⟨c, t' ++ [':'], ?_, hsp⟩
          rw [hattr]
          rfl
      | cons first rest =>
          refine ⟨c, (t' ++ [':'] ++ List.replicate
            (rpslAttributeTextWidth - (a.attr ++ [':']).length) ' ') ++ first, ?_, hsp⟩
          unfold ljustWidth
          rw [hattr]
          simp

theorem zip_getLast? :
    ∀ (l1 : List Str) (l2 : List Char), l1.length = l2.length →
    ∀ x, l1.getLast? = some x →
    ∃ y, l2.getLast? = some y ∧ (l1.zip l2).getLast? = some (x, y) := by
  intro l1
  induction l1 with
  | nil => intro l2 _ x hx; simp at hx
  | cons a l1' ih =>
      intro l2 hlen x hx
      cases l2 with
      | nil => simp at hlen
      | cons b l2' =>
          cases l1' with
          | nil =>
              cases l2' with
              | nil =>
                  simp at hx
                  subst hx
                  exact ⟨b, rfl, rfl⟩
              | cons b2 l2'' => simp at hlen
          | cons a2 l1'' =>
              cases l2' with
              | nil => simp at hlen
              | cons b2 l2'' =>
                  rw [List.getLast?_cons_cons] at hx
                  obtain ⟨y, hy, hzip⟩ := ih (b2 :: l2'') (by simpa using hlen) x hx
                  refine ⟨y, by rwa [List.getLast?_cons_cons], ?_⟩
                  rw [List.zip_cons_cons, List.zip_cons_cons, List.getLast?_cons_cons]
                  rw [List.zip_cons_cons] at hzip
                  exact hzip

theorem renderedLines_last_char (a : AttributeLine) (hg : GoodAttrLine a)
    (hnt : a.value.getLast? ≠ some nlChar) :
    ∀ l, (renderedLines a).getLast? = some l →
    ∃ c, l.getLast? = some c ∧ isPySpace c = false := by
  obtain ⟨hname, hsegs, hinv, hcc⟩ := hg
  intro l hl
  by_cases hval : a.value = []
  · have hrl : renderedLines a = [a.attr ++ [':']] := by
      unfold renderedLines
      rw [hval]
      rfl
    rw [hrl] at hl
    simp at hl
    subst hl
    refine ⟨':', ?_, by decide⟩
    rw [List.getLast?_append_of_ne_nil a.attr (by simp)]
    rfl
  · have hsl : splitlinesPy a.value = splitChar nlChar a.value :=
      splitlinesPy_eq_splitChar _ hval hnt
    cases hs : splitChar nlChar a.value with
    | nil => exact absurd hs (splitChar_ne_nil nlChar _)
    | cons first rest =>
        have hlastseg := splitChar_getLast_ne_nil nlChar a.value hval hnt
        rw [hs] at hlastseg
        have hlen : rest.length = a.continuationChars.length := by
          unfold foldInvariant at hinv
          rw [hs] at hinv
          simp at hinv
          omega
        unfold renderedLines at hl
        rw [hsl, hs] at hl
        simp only at hl
        cases hrest : rest with
        | nil =>
            subst hrest
            simp at hl
            subst hl
            -- single segment: first = a.value, nonempty, NoEdgeWs
            have hfv : a.value = first := by
              have := pyJoin_splitChar nlChar a.value
              rw [hs] at this
              simpa [pyJoin] using this.symm
            have hfne : first ≠ [] := by
              rw [← hfv]
              exact hval
            have hedge : NoEdgeWs first := hsegs first (hs ▸ List.mem_cons_self first [])
            obtain ⟨c, hc⟩ : ∃ c, first.getLast? = some c := by
              cases hfl : first.getLast? with
              | none => rw [List.getLast?_eq_none_iff] at hfl; exact absurd hfl hfne
              | some c => exact ⟨c, rfl⟩
            refine ⟨c, ?_, hedge.2 c hc⟩
            rw [List.getLast?_append_of_ne_nil _ hfne]
            exact hc
        | cons r2 rs2 =>
            subst hrest
            -- last line is a continuation line of the last segment
            have hzne : (r2 :: rs2).zip a.continuationChars ≠ [] := by
              cases hchars : a.continuationChars with
              | nil => rw [hchars] at hlen; simp at hlen
              | cons d ds => simp [hchars]
            obtain ⟨z, hz⟩ : ∃ z, (r2 :: rs2).getLast? = some z :=
              ⟨_, List.getLast?_eq_getLast _ (by simp)⟩
            have hzmem : z ∈ r2 :: rs2 := by
              have hg2 := List.getLast?_eq_getLast (r2 :: rs2) (by simp)
              rw [hg2] at hz
              have hz' := Option.some.inj hz
              rw [← hz']
              exact List.getLast_mem _
            have hzlast : (first :: r2 :: rs2).getLast? = some z := by
              rwa [List.getLast?_cons_cons]
            have hzedge : NoEdgeWs z :=
              hsegs z (hs ▸ List.mem_cons_of_mem first hzmem)
            have hzne2 : z ≠ [] := by
              intro hcc2
              rw [hcc2] at hzlast
              exact hlastseg hzlast
            obtain ⟨y, hy, hziplast⟩ := zip_getLast? (r2 :: rs2) a.continuationChars
              (by simpa using hlen) z hz
            have hmaplast : ((( r2 :: rs2).zip a.continuationChars).map
                (fun p => p.2 :: contPadding ++ p.1)).getLast? =
                some (y :: contPadding ++ z) := by
              rw [List.getLast?_map, hziplast]
              rfl
            have hMne : ((r2 :: rs2).zip a.continuationChars).map
                (fun p => p.2 :: contPadding ++ p.1) ≠ [] := by
              simpa using hzne
            rw [show (ljustWidth (a.attr ++ [':']) ++ first) ::
                ((r2 :: rs2).zip a.continuationChars).map
                  (fun p => p.2 :: contPadding ++ p.1) =
                [ljustWidth (a.attr ++ [':']) ++ first] ++
                ((r2 :: rs2).zip a.continuationChars).map
                  (fun p => p.2 :: contPadding ++ p.1) from rfl,
              List.getLast?_append_of_ne_nil _ hMne, hmaplast] at hl
            simp at hl
            subst hl
            obtain ⟨c, hc⟩ : ∃ c, z.getLast? = some c := by
              cases hfl : z.getLast? with
              | none => rw [List.getLast?_eq_none_iff] at hfl; exact absurd hfl hzne2
              | some c => exact ⟨c, rfl⟩
            refine ⟨c, ?_, hzedge.2 c hc⟩
            have hshape : (y :: (contPadding ++ z)) = (y :: contPadding) ++ z := by
              simp
            rw [hshape, List.getLast?_append_of_ne_nil _ hzne2]
            exact hc


theorem renderedAllLines_ne_nil (e : AttributeLine) (rest : List AttributeLine) :
    renderedAllLines (e :: rest) ≠ [] := by
  unfold renderedAllLines
  simp only [List.map_cons, List.flatten_cons]
  intro h
  rcases List.append_eq_nil.mp h with ⟨h1, _⟩
  exact renderedLines_ne_nil e h1

theorem renderedAllLines_no_nl (data : List AttributeLine)
    (hg : ∀ e ∈ data, GoodAttrLine e) :
    ∀ l ∈ renderedAllLines data, nlChar ∉ l := by
  intro l hl
  unfold renderedAllLines at hl
  rw [List.mem_flatten] at hl
  obtain ⟨chunk, hchunk, hlm⟩ := hl
  rw [List.mem_map] at hchunk
  obtain ⟨e, he, rfl⟩ := hchunk
  exact renderedLines_no_nl e (hg e he) l hlm

theorem renderedAllLines_head_char (e : AttributeLine) (rest : List AttributeLine)
    (hg : GoodAttrLine e) :
    ∃ (c : Char) (t : Str), (renderedAllLines (e :: rest)).head? = some (c :: t) ∧
      isPySpace c = false := by
  obtain ⟨c, t, hh, hsp⟩ := renderedLines_head_char e hg
  refine ⟨c, t, ?_, hsp⟩
  unfold renderedAllLines
  simp only [List.map_cons, List.flatten_cons]
  cases hrl : renderedLines e with
  | nil => exact absurd hrl (renderedLines_ne_nil e)
  | cons x xs =>
      rw [hrl] at hh
      simp at hh
      subst hh
      rfl

theorem renderedAllLines_last_char :
    ∀ (data : List AttributeLine), data ≠ [] →
    (∀ e ∈ data, GoodAttrLine e) →
    (∀ e ∈ data, e.value.getLast? ≠ some nlChar) →
    ∃ l c, (renderedAllLines data).getLast? = some l ∧ l.getLast? = some c ∧
      isPySpace c = false := by
  intro data
  induction data with
  | nil => intro h; exact absurd rfl h
  | cons e rest ih =>
      intro _ hg hnt
      cases hrest : rest with
      | nil =>
          have hrl := renderedLines_ne_nil e
          obtain ⟨l, hl⟩ : ∃ l, (renderedLines e).getLast? = some l :=
            ⟨_, List.getLast?_eq_getLast _ hrl⟩
          obtain ⟨c, hc, hsp⟩ := renderedLines_last_char e
            (hg e (List.mem_cons_self e rest)) (hnt e (List.mem_cons_self e rest)) l hl
          refine ⟨l, c, ?_, hc, hsp⟩
          unfold renderedAllLines
          simp only [List.map_cons, List.map_nil, List.flatten_cons, List.flatten_nil,
            List.append_nil]
          exact hl
      | cons e2 rest2 =>
          subst hrest
          obtain ⟨l, c, hll, hc, hsp⟩ := ih (by simp)
            (fun x hx => hg x (List.mem_cons_of_mem e hx))
            (fun x hx => hnt x (List.mem_cons_of_mem e hx))
          refine ⟨l, c, ?_, hc, hsp⟩
          have happ : renderedAllLines (e :: e2 :: rest2) =
              renderedLines e ++ renderedAllLines (e2 :: rest2) := by
            simp [renderedAllLines]
          rw [happ, List.getLast?_append_of_ne_nil _
            (renderedAllLines_ne_nil e2 rest2)]
          exact hll


theorem c1_roundtrip_main (attrsAllowed : List Str) (text : Str)
    (data : List AttributeLine)
    (hallowed : ∀ x ∈ attrsAllowed, attrNameOk x = true)
    (hex : extractAttributesValues attrsAllowed text = some (data, []))
    (hnt : ∀ e ∈ data, e.value.getLast? ≠ some nlChar) :
    ∃ rendered : Str, renderRpslText data = some rendered ∧
      extractAttributesValues attrsAllowed rendered = some (data, []) := by
  have hg : ∀ e ∈ data, GoodAttrLine e :=
    extract_good attrsAllowed text data [] hallowed hex
  cases data with
  | nil => exact ⟨[], rfl, rfl⟩
  | cons e rest =>
      have hrender := renderRpslText_eq (e :: rest) hg hnt
      refine ⟨joinLinesNL (renderedAllLines (e :: rest)), hrender, ?_⟩
      have hLne := renderedAllLines_ne_nil e rest
      have hnonl := renderedAllLines_no_nl (e :: rest) hg
      obtain ⟨c0, t0, hhead, hsp0⟩ :=
        renderedAllLines_head_char e rest (hg e (List.mem_cons_self e rest))
      obtain ⟨llast, clast, hlast1, hlast2, hlast3⟩ :=
        renderedAllLines_last_char (e :: rest) (by simp) hg hnt
      have hllastne : llast ≠ [] := by
        intro h
        rw [h] at hlast2
        simp at hlast2
      have hjoin : joinLinesNL (renderedAllLines (e :: rest)) =
          pyJoin [nlChar] (renderedAllLines (e :: rest)) ++ [nlChar] :=
        joinLinesNL_eq_pyJoin _ hLne
      obtain ⟨hXl1, hXne⟩ :=
        pyJoin_getLast? [nlChar] (renderedAllLines (e :: rest)) llast hlast1 hllastne
      have hXhead : ∀ cH, (pyJoin [nlChar] (renderedAllLines (e :: rest))).head? =
          some cH → isPySpace cH = false := by
        intro cH hH
        cases hLshape : renderedAllLines (e :: rest) with
        | nil => exact absurd hLshape hLne
        | cons l0 Ls =>
            rw [hLshape] at hhead
            have hl0 : l0 = c0 :: t0 := by simpa using hhead
            rw [hLshape, pyJoin_head? [nlChar] l0 Ls (by rw [hl0]; simp), hl0] at hH
            simp at hH
            rw [← hH]
            exact hsp0
      have hXlastP : ∀ cL, (pyJoin [nlChar] (renderedAllLines (e :: rest))).getLast? =
          some cL → isPySpace cL = false := by
        intro cL hcl
        rw [hXl1, hlast2] at hcl
        injection hcl with hcl
        rw [← hcl]
        exact hlast3
      have hstrip : pyStrip (joinLinesNL (renderedAllLines (e :: rest))) =
          pyJoin [nlChar] (renderedAllLines (e :: rest)) := by
        rw [hjoin]
        exact pyStrip_append_nl _ hXne hXhead hXlastP
      have hsc : splitChar nlChar (pyJoin [nlChar] (renderedAllLines (e :: rest))) =
          renderedAllLines (e :: rest) :=
        splitChar_pyJoin (renderedAllLines (e :: rest)) hLne hnonl
      have hsplitX : splitlinesPy (pyJoin [nlChar] (renderedAllLines (e :: rest))) =
          renderedAllLines (e :: rest) := by
        unfold splitlinesPy
        simp only
        rw [hsc, if_neg]
        intro hcc
        rw [hlast1] at hcc
        exact hllastne (Option.some.inj hcc)
      obtain ⟨s', hrun, hflush⟩ :=
        runCont_allEntries attrsAllowed (e :: rest) initExtState hg hnt
      unfold extractAttributesValues
      rw [hstrip, hsplitX, runLines_of_runCont attrsAllowed _ initExtState s' hrun, hflush]
      rfl

/-- C1 counterexample: the claim requires the rendered text to carry the
same fold-marker sequence as the input, with only continuation-line
column padding canonicalised.  For "a: x" followed by a bare "+"
continuation line, extraction succeeds without error and records the fold
marker "+", but rendering drops the trailing empty value line (Python
splitlines discards a trailing empty segment) and with it the marker:
re-extracting the rendered text yields a different object. -/
theorem c1_counterexample :
    extractAttributesValues [] ("a: x\n+".data) =
      some ([⟨"a".data, ['x', '\n'], ['+']⟩], []) ∧
    renderRpslText [⟨"a".data, ['x', '\n'], ['+']⟩] =
      some ("a:              x\n".data) ∧
    extractAttributesValues [] ("a:              x\n".data) =
      some ([⟨"a".data, "x".data, []⟩], []) ∧
    ([⟨"a".data, "x".data, []⟩] : List AttributeLine) ≠
      [⟨"a".data, ['x', '\n'], ['+']⟩] := by
  refine ⟨by decide, by decide, by decide, by decide⟩

/-- C1 amended: for every schema whose allowed names match the attribute
name pattern and every text whose extraction records zero structural
errors, provided no extracted raw value ends with an embedded newline
(no attribute's folded value has a trailing empty physical line),
rendering succeeds and re-extracting the rendered text reproduces exactly
the same attribute names, values and fold-marker sequences with zero
errors; only the column padding of continuation lines is canonicalised. -/
theorem c1_roundtrip_amended (attrsAllowed : List Str) (text : Str)
    (data : List AttributeLine)
    (hallowed : ∀ x ∈ attrsAllowed, attrNameOk x = true)
    (hex : extractAttributesValues attrsAllowed text = some (data, []))
    (hnt : ∀ e ∈ data, e.value.getLast? ≠ some nlChar) :
    ∃ rendered : Str, renderRpslText data = some rendered ∧
      extractAttributesValues attrsAllowed rendered = some (data, []) :=
  c1_roundtrip_main attrsAllowed text data hallowed hex hnt

/-- Witness for C1 at a two-attribute folded object. -/
theorem c1_witness :
    renderRpslText [⟨"a".data, ['x', '\n', 'y'], ['+']⟩, ⟨"b".data, "z".data, []⟩] =
      some ("a:              x\n+               y\nb:              z\n".data) ∧
    extractAttributesValues []
        ("a:              x\n+               y\nb:              z\n".data) =
      some ([⟨"a".data, ['x', '\n', 'y'], ['+']⟩, ⟨"b".data, "z".data, []⟩], []) := by
  obtain ⟨r, hr, hex⟩ := c1_roundtrip_amended [] ("a: x\n+ y\nb: z".data)
    [⟨"a".data, ['x', '\n', 'y'], ['+']⟩, ⟨"b".data, "z".data, []⟩]
    (fun x hx => absurd hx (List.not_mem_nil x)) (by decide) (by decide)
  have hr2 : renderRpslText [⟨"a".data, ['x', '\n', 'y'], ['+']⟩, ⟨"b".data, "z".data, []⟩] =
      some ("a:              x\n+               y\nb:              z\n".data) := by
    decide
  refine ⟨hr2, ?_⟩
  have : r = ("a:              x\n+               y\nb:              z\n".data) := by
    rw [hr] at hr2
    exact Option.some.inj hr2
  rw [← this]
  exact hex
